import Mathlib

/-!
Shallow embedding of the S33R news pipeline scripts
(`scripts/build_news_archive.py`, `scripts/build_news_json.py`,
`scripts/build_trends_json.py`) and proofs about the dedup-merge-archive
engine and the windowed text-analytics engine.

Modelling conventions:
* JSON items are the `Item` structure; absent keys are `none`.
* Python dicts are insertion-ordered association lists (`List (κ × α)`);
  assigning to an existing key updates the value in place, a new key is
  appended at the end, exactly as in CPython 3.7+.
* `datetime` values are modelled by `PyDT`: the absolute time in Unix
  seconds (`.timestamp()`) plus the attached tz offset in seconds.
  Sub-second precision is dropped (no claim depends on it).
* Python's stable `list.sort` / `sorted` / `heapq.nlargest` are modelled by
  a stable insertion sort; stable sorts by the same key agree on output.
* Text is processed as `List Char`; `str.lower` is `Char.toLower` mapped
  over the characters (all catalog data is ASCII).
-/

/-- One news item, as stored in `news_recent.json` and in archive
partitions.  Optional fields model absent JSON keys (`item.get(...)`
returning `None`).  `published_ts` is integer epoch seconds. -/
structure Item where
  title : Option String := none
  summary : Option String := none
  link : Option String := none
  source : Option String := none
  published : Option String := none
  published_ts : Option Int := none
  date : Option String := none
  smart_groups : List String := []
deriving DecidableEq, Repr

/-- The dedup identity from `merge_and_dedup.key_for` in
`build_news_archive.py`: the tuple `("link", link)` when `link` is present
and truthy (non-empty), otherwise `("title_source", title, source)`. -/
inductive DedupKey where
  | byLink (l : String)
  | byTitleSource (t s : Option String)
deriving DecidableEq, Repr

/-- `key_for` from `merge_and_dedup` (build_news_archive.py lines 179-183). -/
def key_for (it : Item) : DedupKey :=
  match it.link with
  | some l => if l = "" then DedupKey.byTitleSource it.title it.source else DedupKey.byLink l
  | none => DedupKey.byTitleSource it.title it.source

/-- First-match association-list lookup (Python `dict.get` / `dict[k]`). -/
def lookupK {κ α : Type} [DecidableEq κ] (k : κ) : List (κ × α) → Option α
  | [] => none
  | (k1, v) :: t => if k1 = k then some v else lookupK k t

/-- Python dict assignment `m[k] = v`: updates an existing key in place
(keeping its position, CPython 3.7+ semantics) or appends a new key. -/
def insertKV {κ α : Type} [DecidableEq κ] (m : List (κ × α)) (k : κ) (v : α) : List (κ × α) :=
  match m with
  | [] => [(k, v)]
  | (k1, v1) :: t => if k1 = k then (k1, v) :: t else (k1, v1) :: insertKV t k v

/-- Remove the first entry with the given key. -/
def eraseK {κ α : Type} [DecidableEq κ] (k : κ) : List (κ × α) → List (κ × α)
  | [] => []
  | (k1, v1) :: t => if k1 = k then t else (k1, v1) :: eraseK k t

/-- The `merged` dict of `merge_and_dedup`: insert `existing ++ new` in
order, keyed by `key_for`, later entries overwriting earlier ones. -/
def buildMap (l : List Item) : List (DedupKey × Item) :=
  l.foldl (fun m it => insertKV m (key_for it) it) []

/-- The last element of `l` whose `keyOf`-image is `k` (the survivor of
Python dict insertion for that key). -/
def lastWith {α κ : Type} [DecidableEq κ] (keyOf : α → κ) (k : κ) : List α → Option α
  | [] => none
  | x :: t =>
    match lastWith keyOf k t with
    | some v => some v
    | none => if keyOf x = k then some x else none

/-! ### Dates

`civilFromDays`/`daysFromCivil` are the standard proleptic-Gregorian
conversions (Lean `Int` division is floor division for positive divisors,
which these algorithms need). -/

/-- Gregorian calendar date from days since 1970-01-01 (year, month, day). -/
def civilFromDays (z0 : Int) : Int × Int × Int :=
  let z := z0 + 719468
  let era := z / 146097
  let doe := z - era * 146097
  let yoe := (doe - doe / 1460 + doe / 36524 - doe / 146096) / 365
  let y := yoe + era * 400
  let doy := doe - (365 * yoe + yoe / 4 - yoe / 100)
  let mp := (5 * doy + 2) / 153
  let d := doy - (153 * mp + 2) / 5 + 1
  let m := mp + (if mp < 10 then 3 else -9)
  (y + (if m ≤ 2 then 1 else 0), m, d)

/-- Days since 1970-01-01 of a Gregorian date. -/
def daysFromCivil (y m d : Int) : Int :=
  let y1 := if m ≤ 2 then y - 1 else y
  let era := y1 / 400
  let yoe := y1 - era * 400
  let mp := if 2 < m then m - 3 else m + 9
  let doy := (153 * mp + 2) / 5 + d - 1
  let doe := yoe * 365 + yoe / 4 - yoe / 100 + doy
  era * 146097 + doe - 719468

def isLeap (y : Int) : Bool := (y % 4 == 0 && y % 100 != 0) || (y % 400 == 0)

def daysInMonth (y m : Int) : Int :=
  if m = 2 then (if isLeap y then 29 else 28)
  else if m = 4 ∨ m = 6 ∨ m = 9 ∨ m = 11 then 30 else 31

/-- A Python `datetime` as far as these scripts observe it: the absolute
time in Unix seconds (what `.timestamp()` returns) and the attached tz
offset in seconds (`0` for UTC).  `.year`/`.month` read the wall clock
`epoch + offset`. -/
structure PyDT where
  epoch : Int
  offset : Int
deriving DecidableEq, Repr

def PyDT.ymd (dt : PyDT) : Int × Int × Int := civilFromDays ((dt.epoch + dt.offset) / 86400)

def PyDT.year (dt : PyDT) : Int := dt.ymd.1

def PyDT.month (dt : PyDT) : Int := dt.ymd.2.1

/-- `datetime.fromtimestamp` accepts timestamps whose date falls in year
1..9999 and raises `OverflowError`/`OSError`/`ValueError` otherwise. -/
def FROMTS_MIN : Int := -62135596800

def FROMTS_MAX : Int := 253402300799

/-- `datetime.fromtimestamp(ts, tz=timezone.utc)`, `none` when it raises. -/
def fromtimestamp (ts : Int) : Option PyDT :=
  if FROMTS_MIN ≤ ts ∧ ts ≤ FROMTS_MAX then some { epoch := ts, offset := 0 } else none

def isSpaceC (c : Char) : Bool :=
  c = ' ' || c = '\t' || c = '\n' || c = '\r' || c = '\x0b' || c = '\x0c'

/-- Python `str.strip()`. -/
def stripChars (cs : List Char) : List Char :=
  ((cs.dropWhile isSpaceC).reverse.dropWhile isSpaceC).reverse

/-- The `if s.endswith("Z"): s = s[:-1] + "+00:00"` normalization. -/
def zTo0000 (cs : List Char) : List Char :=
  if cs.getLast? = some ('Z') then cs.dropLast ++ ("+00:00").data else cs

/-- Read exactly `n` decimal digits, returning their value and the rest. -/
def readDigitsAux : Nat → List Char → Int → Option (Int × List Char)
  | 0, cs, acc => some (acc, cs)
  | _ + 1, [], _ => none
  | n + 1, c :: cs, acc =>
    if c.isDigit then readDigitsAux n cs (acc * 10 + ((c.toNat : Int) - 48)) else none

/-- Length of the leading run of decimal digits. -/
def digitRunLen : List Char → Nat
  | [] => 0
  | c :: t => if c.isDigit then digitRunLen t + 1 else 0

/-- Consume an optional fractional-seconds part `.d+` (value discarded:
sub-second precision is not modelled). -/
def dropFrac : List Char → Option (List Char)
  | '.' :: rest =>
    let d := digitRunLen rest
    if 1 ≤ d then some (rest.drop d) else none
  | cs => some cs

/-- A `±HH:MM` tz suffix for `fromisoformat` (seconds east of UTC). -/
def parseOffset (cs : List Char) : Option Int :=
  match cs with
  | [] => none
  | s :: rest =>
    if s = '+' ∨ s = '-' then
      match readDigitsAux 2 rest 0 with
      | some (hh, ':' :: rest2) =>
        (match readDigitsAux 2 rest2 0 with
         | some (mm, []) =>
           if hh ≤ 23 ∧ mm ≤ 59 then
             some ((if s = '-' then -1 else 1) * (hh * 3600 + mm * 60))
           else none
         | _ => none)
      | _ => none
    else none

def finishTime (hh mm ss : Int) (rest : List Char) : Option (Int × Option Int) :=
  if hh ≤ 23 ∧ mm ≤ 59 ∧ ss ≤ 59 then
    match rest with
    | [] => some (hh * 3600 + mm * 60 + ss, none)
    | _ =>
      match parseOffset rest with
      | some o => some (hh * 3600 + mm * 60 + ss, some o)
      | none => none
  else none

/-- The time-of-day part `HH:MM[:SS[.f+]][±HH:MM]` of an ISO string. -/
def parseTimePart (cs : List Char) : Option (Int × Option Int) :=
  match readDigitsAux 2 cs 0 with
  | some (hh, ':' :: r1) =>
    (match readDigitsAux 2 r1 0 with
     | some (mm, r2) =>
       (match r2 with
        | ':' :: r3 =>
          (match readDigitsAux 2 r3 0 with
           | some (ss, r4) =>
             (match dropFrac r4 with
              | some r5 => finishTime hh mm ss r5
              | none => none)
           | none => none)
        | _ => finishTime hh mm 0 r2)
     | none => none)
  | _ => none

/-- `datetime.fromisoformat` (CPython pre-3.11 grammar:
`YYYY-MM-DD[{T, }HH:MM[:SS[.f+]][±HH:MM]]`).  Returns the wall-clock time
in seconds since the epoch-in-that-zone plus the optional tz offset. -/
def pyFromIsoformat (cs : List Char) : Option (Int × Option Int) :=
  match readDigitsAux 4 cs 0 with
  | some (y, '-' :: r1) =>
    (match readDigitsAux 2 r1 0 with
     | some (m, '-' :: r2) =>
       (match readDigitsAux 2 r2 0 with
        | some (d, r3) =>
          if 1 ≤ y ∧ 1 ≤ m ∧ m ≤ 12 ∧ 1 ≤ d ∧ d ≤ daysInMonth y m then
            (match r3 with
             | [] => some (daysFromCivil y m d * 86400, none)
             | sep :: r4 =>
               if sep = 'T' ∨ sep = ' ' then
                 (match parseTimePart r4 with
                  | some (secs, off) => some (daysFromCivil y m d * 86400 + secs, off)
                  | none => none)
               else none)
          else none
        | _ => none)
     | _ => none)
  | _ => none

/-- A `%z` suffix for `strptime` (`±HHMM` or `±HH:MM`). -/
def strptimeOffset (cs : List Char) : Option Int :=
  match cs with
  | [] => none
  | s :: r =>
    if s = '+' ∨ s = '-' then
      match readDigitsAux 2 r 0 with
      | some (hh, ':' :: r3) =>
        (match readDigitsAux 2 r3 0 with
         | some (mm, []) =>
           if mm ≤ 59 then some ((if s = '-' then -1 else 1) * (hh * 3600 + mm * 60)) else none
         | _ => none)
      | some (hh, r2) =>
        (match readDigitsAux 2 r2 0 with
         | some (mm, []) =>
           if mm ≤ 59 then some ((if s = '-' then -1 else 1) * (hh * 3600 + mm * 60)) else none
         | _ => none)
      | none => none
    else none

/-- The shared `"%Y-%m-%dT%H:%M:%S"` prefix of the strptime fallback
formats: wall-clock seconds plus unconsumed input. -/
def strptimeBase (cs : List Char) : Option (Int × List Char) :=
  match readDigitsAux 4 cs 0 with
  | some (y, '-' :: r1) =>
    (match readDigitsAux 2 r1 0 with
     | some (m, '-' :: r2) =>
       (match readDigitsAux 2 r2 0 with
        | some (d, 'T' :: r3) =>
          (match readDigitsAux 2 r3 0 with
           | some (hh, ':' :: r4) =>
             (match readDigitsAux 2 r4 0 with
              | some (mm, ':' :: r5) =>
                (match readDigitsAux 2 r5 0 with
                 | some (ss, r6) =>
                   if 1 ≤ y ∧ 1 ≤ m ∧ m ≤ 12 ∧ 1 ≤ d ∧ d ≤ daysInMonth y m ∧
                       hh ≤ 23 ∧ mm ≤ 59 ∧ ss ≤ 59 then
                     some (daysFromCivil y m d * 86400 + hh * 3600 + mm * 60 + ss, r6)
                   else none
                 | none => none)
              | _ => none)
           | _ => none)
        | _ => none)
     | _ => none)
  | _ => none

/-- `strptime(s, "%Y-%m-%dT%H:%M:%S%z")` followed by the source's
`.replace(tzinfo=timezone.utc)`: the parsed offset is discarded and the
wall clock is reinterpreted as UTC (a quirk kept from the source). -/
def strptimeTzFmt (cs : List Char) : Option Int :=
  match strptimeBase cs with
  | some (wall, rest) =>
    (match strptimeOffset rest with
     | some _ => some wall
     | none => none)
  | none => none

/-- `strptime(s, "%Y-%m-%dT%H:%M:%S")` then `.replace(tzinfo=utc)`. -/
def strptimeNaiveFmt (cs : List Char) : Option Int :=
  match strptimeBase cs with
  | some (wall, []) => some wall
  | _ => none

/-- The `published` string branch of `parse_published_dt`
(build_news_archive.py lines 112-137): strip, normalize a trailing `Z`,
try `fromisoformat` (naive means UTC), then the two strptime fallbacks. -/
def parsePublishedStr (p : String) : Option PyDT :=
  let s := stripChars p.data
  if s = [] then none
  else
    let s2 := zTo0000 s
    match pyFromIsoformat s2 with
    | some (wall, some o) => some { epoch := wall - o, offset := o }
    | some (wall, none) => some { epoch := wall, offset := 0 }
    | none =>
      match strptimeTzFmt s2 with
      | some wall => some { epoch := wall, offset := 0 }
      | none =>
        match strptimeNaiveFmt s2 with
        | some wall => some { epoch := wall, offset := 0 }
        | none => none

/-- `parse_published_dt` (build_news_archive.py lines 91-140): prefer a
numeric `published_ts` (falling through when `fromtimestamp` raises), then
the `published` ISO string, else `None`. -/
def parse_published_dt (it : Item) : Option PyDT :=
  let fallback : Option PyDT :=
    match it.published with
    | some p => parsePublishedStr p
    | none => none
  match it.published_ts with
  | some ts =>
    (match fromtimestamp ts with
     | some dt => some dt
     | none => fallback)
  | none => fallback

/-- `sort_key` inside `merge_and_dedup` (build_news_archive.py lines
192-199): the parsed timestamp, else a raw numeric `published_ts`, else 0. -/
def sort_key (it : Item) : Int :=
  match parse_published_dt it with
  | some dt => dt.epoch
  | none =>
    match it.published_ts with
    | some ts => ts
    | none => 0

/-- Stable insert for a descending sort: `x` is placed after every element
whose key is ≥ its own, before the first strictly smaller one. -/
def insDescBy {α : Type} (keyOf : α → Int) (x : α) : List α → List α
  | [] => [x]
  | y :: ys => if keyOf y < keyOf x then x :: y :: ys else y :: insDescBy keyOf x ys

/-- Stable descending sort by an integer key; agrees with Python's stable
`list.sort(key=..., reverse=True)`. -/
def sortDescBy {α : Type} (keyOf : α → Int) (l : List α) : List α :=
  l.foldl (fun acc x => insDescBy keyOf x acc) []

/-- `merge_and_dedup` (build_news_archive.py lines 172-202): build the
key→item dict over `existing ++ new` (later wins), then sort the values by
`sort_key` descending (stably). -/
def merge_and_dedup (existing new : List Item) : List Item :=
  sortDescBy sort_key ((buildMap (existing ++ new)).map Prod.snd)

/-! ### Archival compaction (`build_news_archive.py` main) -/

/-- A persisted partition file as `load_json_list` can find it: absent,
a bare list, a dict with an `items` list, a dict without one, or any
other JSON root. -/
inductive JFile where
  | missing
  | jlist (items : List Item)
  | jdictItems (items : List Item)
  | jdictNoItems
  | jother
deriving DecidableEq, Repr

/-- `load_json_list` (build_news_archive.py lines 49-80): missing file is
an empty list; a bare list or a dict with an `items` list loads; any other
shape raises `ValueError`. -/
def load_json_list : JFile → Except String (List Item)
  | JFile.missing => Except.ok []
  | JFile.jlist its => Except.ok its
  | JFile.jdictItems its => Except.ok its
  | JFile.jdictNoItems => Except.error ("Esperado lista ou dict com chave items")
  | JFile.jother => Except.error ("Esperado lista ou dict")

def loadOk (f : JFile) : Bool :=
  match load_json_list f with
  | Except.ok _ => true
  | Except.error _ => false

def itemsOfFile (f : JFile) : List Item :=
  match load_json_list f with
  | Except.ok l => l
  | Except.error _ => []

/-- The `(dt.year, dt.month)` monthly bucket key of an item, `none` when
its date does not parse (such items are skipped by the compactor). -/
def bucket_month_of (it : Item) : Option (Int × Int) :=
  (parse_published_dt it).map (fun dt => (dt.year, dt.month))

/-- The yearly bucket key. -/
def bucket_year_of (it : Item) : Option Int :=
  (parse_published_dt it).map PyDT.year

/-- Bucket keys in first-occurrence order (`defaultdict` insertion order). -/
def firstKeys {κ : Type} [DecidableEq κ] (keyOf : Item → Option κ) (items : List Item) : List κ :=
  items.foldl
    (fun acc it =>
      match keyOf it with
      | none => acc
      | some k => if k ∈ acc then acc else acc ++ [k])
    []

/-- Stable insert for an ascending sort by a boolean order. -/
def insAscBy {κ : Type} (lt : κ → κ → Bool) (x : κ) : List κ → List κ
  | [] => [x]
  | y :: ys => if lt x y then x :: y :: ys else y :: insAscBy lt x ys

/-- Stable ascending sort (Python `sorted`). -/
def sortAscBy {κ : Type} (lt : κ → κ → Bool) (l : List κ) : List κ :=
  l.foldl (fun acc x => insAscBy lt x acc) []

/-- `sorted(buckets.items())`: the distinct bucket keys in ascending order,
each paired with the bucketed items in input order. -/
def bucketPairs {κ : Type} [DecidableEq κ] (keyOf : Item → Option κ) (lt : κ → κ → Bool)
    (items : List Item) : List (κ × List Item) :=
  (sortAscBy lt (firstKeys keyOf items)).map
    (fun k => (k, items.filter (fun it => decide (keyOf it = some k))))

/-- Python tuple comparison on `(year, month)`. -/
def monthKeyLt (a b : Int × Int) : Bool :=
  if a.1 < b.1 then true else if a.1 = b.1 then decide (a.2 < b.2) else false

/-- The per-partition loop of `main` (build_news_archive.py lines 224-252):
load the existing file, `merge_and_dedup` it with the bucket, write the
result.  An exception while loading aborts the whole loop (and the run),
leaving the failing partition and all later ones untouched; the store
written so far is returned together with the error. -/
def compactFold {κ : Type} [DecidableEq κ] (store : κ → JFile) :
    List (κ × List Item) → ((κ → JFile) × Option String)
  | [] => (store, none)
  | (k, bucket) :: rest =>
    match load_json_list (store k) with
    | Except.error e => (store, some e)
    | Except.ok existing =>
      compactFold (fun k2 => if k2 = k then JFile.jlist (merge_and_dedup existing bucket) else store k2) rest

/-- One archive run over the monthly partitions. -/
def runMonthly (store : Int × Int → JFile) (recent : List Item) :
    ((Int × Int → JFile) × Option String) :=
  compactFold store (bucketPairs bucket_month_of monthKeyLt recent)

/-- One archive run over the yearly partitions. -/
def runYearly (store : Int → JFile) (recent : List Item) :
    ((Int → JFile) × Option String) :=
  compactFold store (bucketPairs bucket_year_of (fun a b => decide (a < b)) recent)

/-- One whole `main` run: the monthly loop, then — only when it did not
raise — the yearly loop (an exception in the monthly loop aborts `main`,
so no yearly partition is written either). -/
def runArchive (storeM : Int × Int → JFile) (storeY : Int → JFile) (recent : List Item) :
    ((Int × Int → JFile) × (Int → JFile) × Option String) :=
  match runMonthly storeM recent with
  | (sM, some e) => (sM, storeY, some e)
  | (sM, none) =>
    match runYearly storeY recent with
    | (sY, err) => (sM, sY, err)

/-! ### Incremental rebuild of the Recency Store (`build_news_json.py` main) -/

/-- `item["published_ts"] or 0` / `existing.get("published_ts") or 0`. -/
def tsOr0 (it : Item) : Int :=
  match it.published_ts with
  | some t => t
  | none => 0

/-- The same-link merge of the feed loop (build_news_json.py lines
487-494): a new link is inserted; an existing link keeps the incumbent
unless the candidate's `published_ts or 0` is strictly greater. -/
def upsertLatest (m : List (String × Item)) (l : String) (cand : Item) : List (String × Item) :=
  match lookupK l m with
  | none => insertKV m l cand
  | some ex => if tsOr0 ex < tsOr0 cand then insertKV m l cand else m

/-- One step of the incremental preload (build_news_json.py lines 408-426):
items without a link are skipped; a dated item older than the cutoff
expires; a `fromtimestamp` failure is swallowed and the item kept;
undated items are always kept. -/
def preloadStep (cutoff : Int) (m : List (String × Item)) (it : Item) : List (String × Item) :=
  match it.link with
  | none => m
  | some l =>
    if l = "" then m
    else
      match it.published_ts with
      | none => insertKV m l it
      | some ts =>
        if FROMTS_MIN ≤ ts ∧ ts ≤ FROMTS_MAX then
          (if ts < cutoff then m else insertKV m l it)
        else insertKV m l it

/-- The preload phase over the existing `news_recent.json` items. -/
def preload (existing : List Item) (cutoff : Int) : List (String × Item) :=
  existing.foldl (preloadStep cutoff) []

/-- The per-entry body of the feed loop (build_news_json.py lines 453-494):
entries without link or title are skipped without any count; dated entries
below the cutoff are skipped; the rest go through `upsertLatest`. -/
def feedStep (cutoff : Int) (m : List (String × Item)) (cand : Item) : List (String × Item) :=
  match cand.link, cand.title with
  | some l, some t =>
    if l = "" ∨ t = "" then m
    else
      (match cand.published_ts with
       | some ts => if ts < cutoff then m else upsertLatest m l cand
       | none => upsertLatest m l cand)
  | _, _ => m

/-- The whole feed phase, folded over the fetched entries. -/
def feedFold (cutoff : Int) (m : List (String × Item)) (cands : List Item) : List (String × Item) :=
  cands.foldl (feedStep cutoff) m

/-! ### Trend analytics (`build_trends_json.py`) -/

/-- `THREAT_ACTOR_NAMES` (build_trends_json.py lines 93-486), in source
order, duplicates preserved. -/
def THREAT_ACTOR_NAMES : List String := [
  "APT-C-23",
  "APT-C-36",
  "APT1",
  "APT12",
  "APT16",
  "APT17",
  "APT18",
  "APT19",
  "APT28",
  "APT29",
  "APT3",
  "APT30",
  "APT32",
  "APT33",
  "APT37",
  "APT38",
  "APT39",
  "APT41",
  "APT42",
  "APT5",
  "Agrius",
  "Ajax Security Team",
  "Akira",
  "Andariel",
  "Aoqin Dragon",
  "AppleJeus",
  "Aquatic Panda",
  "Axiom",
  "BITTER",
  "BRONZE BUTLER",
  "BackdoorDiplomacy",
  "BlackByte",
  "BlackOasis",
  "BlackTech",
  "Blue Mockingbird",
  "CURIUM",
  "Carbanak",
  "Chimera",
  "Cinnamon Tempest",
  "Cleaver",
  "Cobalt Group",
  "Confucius",
  "Contagious Interview",
  "CopyKittens",
  "Daggerfly",
  "Dark Caracal",
  "DarkHydrus",
  "DarkVishnya",
  "Darkhotel",
  "Deep Panda",
  "DragonOK",
  "Dragonfly",
  "EXOTIC LILY",
  "Earth Lusca",
  "Elderwood",
  "Ember Bear",
  "Equation",
  "Evilnum",
  "FIN10",
  "FIN13",
  "FIN4",
  "FIN5",
  "FIN6",
  "FIN7",
  "FIN8",
  "Ferocious Kitten",
  "Fox Kitten",
  "GALLIUM",
  "GCMAN",
  "GOLD SOUTHFIELD",
  "Gallmaker",
  "Gamaredon Group",
  "Gorgon Group",
  "Group5",
  "HAFNIUM",
  "HEXANE",
  "Higaisa",
  "INC Ransom",
  "Inception",
  "IndigoZebra",
  "Indrik Spider",
  "Ke3chang",
  "Kimsuky",
  "LAPSUS$",
  "Lazarus Group",
  "LazyScripter",
  "Leafminer",
  "Leviathan",
  "Lotus Blossom",
  "LuminousMoth",
  "Machete",
  "Magic Hound",
  "Malteiro",
  "Medusa Group",
  "Metador",
  "Moafee",
  "Mofang",
  "Molerats",
  "Moonstone Sleet",
  "Moses Staff",
  "MoustachedBouncer",
  "MuddyWater",
  "Mustang Panda",
  "Mustard Tempest",
  "NEODYMIUM",
  "Naikon",
  "Nomadic Octopus",
  "OilRig",
  "Orangeworm",
  "PLATINUM",
  "POLONIUM",
  "PROMETHIUM",
  "Patchwork",
  "PittyTiger",
  "Play",
  "Poseidon Group",
  "Putter Panda",
  "RTM",
  "Rancor",
  "RedCurl",
  "RedEcho",
  "Rocke",
  "Saint Bear",
  "Salt Typhoon",
  "Sandworm Team",
  "Scarlet Mimic",
  "Scattered Spider",
  "Sea Turtle",
  "SideCopy",
  "Sidewinder",
  "Silence",
  "Silent Librarian",
  "SilverTerrier",
  "Sowbug",
  "Star Blizzard",
  "Stealth Falcon",
  "Storm-0501",
  "Storm-1811",
  "Strider",
  "Suckfly",
  "TA2541",
  "TA459",
  "TA505",
  "TA551",
  "TA577",
  "TA578",
  "TEMP.Veles",
  "TeamTNT",
  "The White Company",
  "Threat Group-1314",
  "Threat Group-3390",
  "Thrip",
  "ToddyCat",
  "Tonto Team",
  "Transparent Tribe",
  "Tropic Trooper",
  "Turla",
  "UNC3886",
  "Velvet Ant",
  "Volatile Cedar",
  "Volt Typhoon",
  "WIRTE",
  "Water Galura",
  "Whitefly",
  "Windigo",
  "Windshift",
  "Winnti Group",
  "Winter Vivern",
  "Wizard Spider",
  "ZIRCONIUM",
  "admin@338",
  "menuPass",
  "Amethyst Rain",
  "Antique Typhoon",
  "Aqua Blizzard",
  "Berry Sandstorm",
  "Blue Tsunami",
  "Brass Typhoon",
  "Brocade Typhoon",
  "Burgundy Sandstorm",
  "Cadet Blizzard",
  "Canary Typhoon",
  "Canvas Cyclone",
  "Caramel Tsunami",
  "Carmine Tsunami",
  "Charcoal Typhoon",
  "Checkered Typhoon",
  "Cinnamon Tempest",
  "Circle Typhoon",
  "Citrine Sleet",
  "Copper Typhoon",
  "Cotton Sandstorm",
  "CovertNetwork-1658",
  "Crescent Typhoon",
  "Crimson Sandstorm",
  "Cuboid Sandstorm",
  "Daffodil Gust",
  "Denim Tsunami",
  "Diamond Sleet",
  "Emerald Sleet",
  "Fallow Squall",
  "Flax Typhoon",
  "Forest Blizzard",
  "Ghost Blizzard",
  "Gingham Typhoon",
  "Granite Typhoon",
  "Gray Sandstorm",
  "Hazel Sandstorm",
  "Heart Typhoon",
  "Hexagon Typhoon",
  "Houndstooth Typhoon",
  "Jade Sleet",
  "Jasper Sleet",
  "Lace Tempest",
  "Lemon Sandstorm",
  "Leopard Typhoon",
  "Lilac Typhoon",
  "Linen Typhoon",
  "Luna Tempest",
  "Magenta Dust",
  "Manatee Tempest",
  "Mango Sandstorm",
  "Marbled Dust",
  "Marigold Sandstorm",
  "Midnight Blizzard",
  "Mint Sandstorm",
  "Moonstone Sleet",
  "Mulberry Typhoon",
  "Mustard Tempest",
  "Neva Flood",
  "Night Tsunami",
  "Nylon Typhoon",
  "Octo Tempest",
  "Oka Flood",
  "Onyx Sleet",
  "Opal Sleet",
  "Patched Lightning",
  "Peach Sandstorm",
  "Pearl Sleet",
  "Pepper Typhoon",
  "Periwinkle Tempest",
  "Phlox Tempest",
  "Pink Sandstorm",
  "Pinstripe Lightning",
  "Pistachio Tempest",
  "Plaid Rain",
  "Pumpkin Sandstorm",
  "Purple Typhoon",
  "Raspberry Typhoon",
  "Red Sandstorm",
  "Ruby Sleet",
  "Ruza Flood",
  "Salmon Typhoon",
  "Salt Typhoon",
  "Sangria Tempest",
  "Sapphire Sleet",
  "Satin Typhoon",
  "Seashell Blizzard",
  "Secret Blizzard",
  "Sefid Flood",
  "Shadow Typhoon",
  "Silk Typhoon",
  "Smoke Sandstorm",
  "Spandex Tempest",
  "Star Blizzard",
  "Storm-0216",
  "Storm-0230",
  "Storm-0247",
  "Storm-0249",
  "Storm-0252",
  "Storm-0288",
  "Storm-0302",
  "Storm-0408",
  "Storm-0485",
  "Storm-0501",
  "Storm-0538",
  "Storm-0539",
  "Storm-0569",
  "Storm-0671",
  "Storm-0940",
  "Storm-0978",
  "Storm-1101",
  "Storm-1113",
  "Storm-1152",
  "Storm-1175",
  "Storm-1194",
  "Storm-1249",
  "Storm-1516",
  "Storm-1567",
  "Storm-1607",
  "Storm-1674",
  "Storm-1811",
  "Storm-1849",
  "Storm-1865",
  "Storm-1982",
  "Storm-2035",
  "Storm-2077",
  "Storm-2246",
  "Storm-2372",
  "Storm-2460",
  "Storm-2477",
  "Storm-2603",
  "Storm-2657",
  "Strawberry Tempest",
  "Sunglow Blizzard",
  "Swirl Typhoon",
  "Taffeta Typhoon",
  "Taizi Flood",
  "Tumbleweed Typhoon",
  "Twill Typhoon",
  "Vanilla Tempest",
  "Velvet Tempest",
  "Violet Typhoon",
  "Void Blizzard",
  "Volga Flood",
  "Volt Typhoon",
  "Wheat Tempest",
  "Wisteria Tsunami",
  "Yulong Flood",
  "Zigzag Hail",
  "HAZARD SPIDER",
  "FROZEN SPIDER",
  "HERMIT SPIDER",
  "BITWISE SPIDER",
  "IMPOSTER SPIDER",
  "MUTANT SPIDER",
  "SCION SPIDER",
  "SLY SPIDER",
  "APOTHECARY SPIDER",
  "DEMON SPIDER",
  "VETO SPIDER",
  "VICE SPIDER",
  "SOLAR SPIDER",
  "TRAVELING SPIDER",
  "PLUMP SPIDER",
  "NITRO SPIDER",
  "CURLY SPIDER",
  "CHATTY SPIDER",
  "RENAISSANCE SPIDER",
  "PUNK SPIDER",
  "RECESS SPIDER",
  "BRAIN SPIDER",
  "SCATTERED SPIDER",
  "AVIATOR SPIDER",
  "PROPHET SPIDER",
  "GRACEFUL SPIDER",
  "SCULLY SPIDER",
  "BRASH SPIDER",
  "LIGHTNING SPIDER",
  "HOOK SPIDER",
  "HOLIDAY SPIDER",
  "SAMBA SPIDER",
  "LUNAR SPIDER",
  "LUXURY SPIDER",
  "NIMBLE SPIDER",
  "COOKIE SPIDER",
  "ROBOT SPIDER",
  "ODYSSEY SPIDER",
  "ROYAL SPIDER",
  "BLIND SPIDER",
  "WIZARD SPIDER",
  "BOUNTY JACKAL",
  "CRUEL JACKAL",
  "HORDE PANDA",
  "SUNRISE PANDA",
  "PHANTOM PANDA",
  "CASCADE PANDA",
  "LOTUS PANDA",
  "GENESIS PANDA",
  "WARP PANDA",
  "VERTIGO PANDA",
  "MUSTANG PANDA",
  "HORDE PANDA",
  "OPERATOR PANDA",
  "ENVOY PANDA",
  "GOSSAMER BEAR",
  "FANCY BEAR",
  "PRIMITIVE BEAR",
  "COZY BEAR",
  "VOODOO BEAR",
  "VENOMOUS BEAR",
  "FABLE TIGER",
  "OUTRIDER TIGER",
  "HAZY TIGER",
  "RAZOR TIGER",
  "FRANTIC TIGER",
  "FAMOUS CHOLLIMA",
  "LABYRINTH CHOLLIMA",
  "STARDUST CHOLLIMA",
  "HAYWIRE KITTEN",
  "SPECTRAL KITTEN",
  "GALACTIC OCELOT"
]

/-- `STOPWORDS` (build_trends_json.py lines 37-53). -/
def STOPWORDS : List String := [
  "the", "and", "for", "with", "from", "this", "that", "have", "has", "into", "over", "under", "about", "your", "you", "are", "was", "were", "will", "their", "they", "them", "its", "our", "out", "but", "not", "can", "could", "would", "should", "may", "might", "than", "then", "after", "before", "more", "less", "also", "just", "into", "via", "security", "cyber", "attack", "attacks", "threat", "threats", "vulnerability", "vulnerabilities", "report", "reports", "blog", "post", "news", "data", "first", "all", "access", "based", "using", "used", "user", "users", "update", "updated", "updates", "detail", "details", "http", "https", "www", "com"]

/-- `KEYWORD_VENDOR_STOPWORDS` (lines 55-58): only `upguard`; the other
vendor names there are commented out in the source. -/
def KEYWORD_VENDOR_STOPWORDS : List String := ["upguard"]

/-- `VENDOR_KEYWORDS` (lines 62-74), in source (dict) order. -/
def VENDOR_KEYWORDS : List (String × List String) := [
  ("Microsoft", ["microsoft", "windows", "exchange", "azure"]),
  ("Cisco", ["cisco", "ios xe"]),
  ("Palo Alto", ["palo alto", "pan-os"]),
  ("Fortinet", ["fortinet", "fortigate"]),
  ("Cloudflare", ["cloudflare"]),
  ("Google", ["google", "chrome", "android", "gmail"]),
  ("Apple", ["apple", "macos", "ios", "ipados"]),
  ("VMware", ["vmware", "esxi"]),
  ("Citrix", ["citrix"]),
  ("Progress", ["progress", "moveit"]),
  ("Atlassian", ["atlassian", "jira", "confluence"])]

/-- `TRENDING_TERMS` (lines 77-87), key → display label, dict order. -/
def TRENDING_TERMS : List (String × String) := [
  ("ransomware", "Ransomware"),
  ("double extortion", "Double extortion"),
  ("supply chain", "Supply chain"),
  ("0-day", "0-day"),
  ("zero-day", "Zero-day"),
  ("data breach", "Data breach"),
  ("initial access", "Initial access"),
  ("phishing", "Phishing"),
  ("credential stuffing", "Credential stuffing")]

/-- The analysis windows `WINDOWS` (build_trends_json.py lines 30-35),
name → trailing days, in source order. -/
def WINDOWS : List (String × Nat) := [("24h", 1), ("7d", 7), ("30d", 30), ("90d", 90)]

/-- `within_window` (build_trends_json.py lines 652-653):
`entry_dt >= now - timedelta(days=days)`, on absolute seconds. -/
def within_window (entryDt now : Int) (days : Nat) : Bool :=
  decide (now - (days : Int) * 86400 ≤ entryDt)

/-- `parse_iso` (build_trends_json.py lines 529-543): normalize a trailing
`Z`, `fromisoformat`, assume UTC when naive, else convert to UTC.  The
source raises on failure; the caller catches, so failure is `none`. -/
def parse_iso (s : String) : Option Int :=
  let cs := s.data
  if cs = [] then none
  else
    match pyFromIsoformat (zTo0000 cs) with
    | some (wall, some o) => some (wall - o)
    | some (wall, none) => some wall
    | none => none

/-- Python `a or b` over optional strings (`None` and `""` are falsy). -/
def pyOrStr (a b : Option String) : Option String :=
  match a with
  | some s => if s = "" then b else some s
  | none => b

/-- The date of an entry as the trends `main` resolves it (lines 684-693):
`entry.get("published") or entry.get("date")`, skipped when missing or
unparseable.  Returns the UTC epoch seconds. -/
def entryDate (e : Item) : Option Int :=
  match pyOrStr e.published e.date with
  | none => none
  | some s => if s = "" then none else parse_iso s

def digitChar (n : Nat) : Char := Char.ofNat (48 + n)

def pad2N (n : Nat) : List Char := [digitChar (n / 10 % 10), digitChar (n % 10)]

def pad4N (n : Nat) : List Char :=
  [digitChar (n / 1000 % 10), digitChar (n / 100 % 10), digitChar (n / 10 % 10), digitChar (n % 10)]

/-- `dt.date().isoformat()` of a UTC epoch: `YYYY-MM-DD`. -/
def isoDateStr (epoch : Int) : String :=
  let ymd := civilFromDays (epoch / 86400)
  String.mk (pad4N ymd.1.toNat ++ ('-' :: pad2N ymd.2.1.toNat) ++ ('-' :: pad2N ymd.2.2.toNat))

/-- `normalize_text` (build_trends_json.py lines 584-590):
`" ".join([title, summary, source]).lower()`, as lowered characters. -/
def normalize_text (e : Item) : List Char :=
  (((match e.title with | some s => s | none => "") ++ " " ++
    (match e.summary with | some s => s | none => "") ++ " " ++
    (match e.source with | some s => s | none => "")).data).map Char.toLower

/-- Python `\w` on the ASCII catalog: letters, digits, underscore. -/
def isWordChar (c : Char) : Bool := c.isAlphanum || c = '_'

/-- A regex `\b` between two adjacent characters (`none` = string edge):
exactly one side is a word character. -/
def boundaryOk (a b : Option Char) : Bool :=
  (match a with | some c => isWordChar c | none => false) !=
    (match b with | some c => isWordChar c | none => false)

/-- The lowered threat-actor names, in source (alternation) order. -/
def lowNames : List (List Char) := THREAT_ACTOR_NAMES.map (fun s => s.data.map Char.toLower)

/-- Try the alternation at the current position: the first name in source
order that is a prefix here and is followed by a `\b`. -/
def matchName (cs : List Char) : List (List Char) → Option (List Char)
  | [] => none
  | nm :: rest =>
    if nm.isPrefixOf cs &&
        (match nm.getLast? with
         | some lc => boundaryOk (some lc) (cs.drop nm.length).head?
         | none => false) then
      some nm
    else matchName cs rest

/-- `THREAT_ACTOR_NAME_REGEX.finditer(text)` (lines 517-520, 707): leftmost
non-overlapping matches of `\b(name1|...|nameN)\b` over the already
lowercased text; the surfaces are therefore lowercase. -/
def scanNamesAux : Nat → Option Char → List Char → List String
  | 0, _, _ => []
  | _ + 1, _, [] => []
  | fuel + 1, prev, c :: rest =>
    if boundaryOk prev (some c) then
      match matchName (c :: rest) lowNames with
      | some nm => String.mk nm :: scanNamesAux fuel nm.getLast? ((c :: rest).drop nm.length)
      | none => scanNamesAux fuel (some c) rest
    else scanNamesAux fuel (some c) rest

def scanNames (cs : List Char) : List String := scanNamesAux cs.length none cs

/-- `CANONICAL_TA_MAP.get(raw, raw)` (lines 513-514, 709): lowercase name →
official form; later duplicates in the source list win, hence the reverse
search.  The argument is already lowercase (it comes from lowered text). -/
def canonicalOf (s : String) : String :=
  match THREAT_ACTOR_NAMES.reverse.find? (fun n => n.data.map Char.toLower == s.data) with
  | some n => n
  | none => s

/-- `c.isdigit() → next char check` for the generic-pattern tails: after a
maximal digit run a `\b` needs the next char to be a non-word one. -/
def digitsThenBoundary (cs : List Char) : Bool :=
  let d := digitRunLen cs
  decide (1 ≤ d) &&
    (match (cs.drop d).head? with
     | none => true
     | some c => !isWordChar c)

/-- `\bAPT ?\d+\b` at the current position (Python `?` tries the space
first, then backtracks). -/
def aptSpaceAt (cs : List Char) : Bool :=
  ("apt").data.isPrefixOf cs &&
    (let r := cs.drop 3
     match r with
     | ' ' :: t => digitsThenBoundary t || digitsThenBoundary r
     | _ => digitsThenBoundary r)

def litDigitsAt (lit : String) (cs : List Char) : Bool :=
  lit.data.isPrefixOf cs && digitsThenBoundary (cs.drop lit.data.length)

/-- Any of the generic threat-actor patterns (lines 494-502) matching at
the current position (all start with a word character, so the leading `\b`
is checked by the caller). -/
def genericAt (cs : List Char) : Bool :=
  aptSpaceAt cs || litDigitsAt ("apt-c-") cs || litDigitsAt ("ta") cs ||
    litDigitsAt ("unc") cs || litDigitsAt ("storm-") cs || litDigitsAt ("fin") cs ||
    litDigitsAt ("threat group-") cs

def leadingOk (prev : Option Char) : Bool :=
  match prev with
  | none => true
  | some c => !isWordChar c

def hasGenericAux : Option Char → List Char → Bool
  | _, [] => false
  | prev, c :: rest => (leadingOk prev && genericAt (c :: rest)) || hasGenericAux (some c) rest

/-- `any(p.search(text) for p in threat_actor_compiled)` restricted to the
generic patterns; the big literal alternation is the last pattern and is
covered by `scanNames`. -/
def hasGenericActor (cs : List Char) : Bool := hasGenericAux none cs

/-- `has_actor` (line 702): any generic pattern or any literal name. -/
def has_actor (cs : List Char) : Bool := hasGenericActor cs || !(scanNames cs).isEmpty

/-- `CVE-\d{4}-\d{4,7}\b` after the literal `cve-` at this position: the
year digits, a dash, then a maximal digit run of length 4..7 ended by a
non-word char. -/
def cveTailAt (cs : List Char) : Option (List Char × List Char) :=
  if ("cve-").data.isPrefixOf cs then
    let r1 := cs.drop 4
    let y := digitRunLen r1
    if y = 4 then
      match r1.drop 4 with
      | '-' :: r2 =>
        let d := digitRunLen r2
        if 4 ≤ d ∧ d ≤ 7 then
          (match (r2.drop d).head? with
           | some c => if isWordChar c then none else some (cs.take (9 + d), cs.drop (9 + d))
           | none => some (cs.take (9 + d), cs.drop (9 + d)))
        else none
      | _ => none
    else none
  else none

/-- `CVE_REGEX.findall(text)` (line 522, 733) over the lowered text:
leftmost non-overlapping `\bCVE-\d{4}-\d{4,7}\b` matches, lowercase. -/
def scanCvesAux : Nat → Option Char → List Char → List (List Char)
  | 0, _, _ => []
  | _ + 1, _, [] => []
  | fuel + 1, prev, c :: rest =>
    if boundaryOk prev (some c) then
      match cveTailAt (c :: rest) with
      | some (m, after) => m :: scanCvesAux fuel m.getLast? after
      | none => scanCvesAux fuel (some c) rest
    else scanCvesAux fuel (some c) rest

def toUpperChars (cs : List Char) : List Char := cs.map Char.toUpper

/-- `set(m.upper() for m in CVE_REGEX.findall(text))`, dedup keeping first
occurrence (the iteration order of a Python set is unspecified; only tie
order in frequency tables could observe it, which no settled claim does). -/
def cveHits (text : List Char) : List String :=
  ((scanCvesAux text.length none text).map (fun m => String.mk (toUpperChars m))).eraseDups

/-- Substring test, Python `needle in hay`. -/
def containsSub (needle hay : List Char) : Bool :=
  match hay with
  | [] => needle.isEmpty
  | _ :: t => needle.isPrefixOf hay || containsSub needle t

/-- The vendor hits of an entry (lines 719-724): vendors any of whose
keywords occurs in the text, in `VENDOR_KEYWORDS` order. -/
def vendorHits (text : List Char) : List String :=
  VENDOR_KEYWORDS.filterMap
    (fun p => if p.2.any (fun kw => containsSub (kw.data.map Char.toLower) text) then some p.1 else none)

/-- The trending-term hits (lines 727-730), in `TRENDING_TERMS` order. -/
def trendHits (text : List Char) : List String :=
  (TRENDING_TERMS.map Prod.fst).filter (fun k => containsSub (k.data.map Char.toLower) text)

/-- Maximal runs of `[a-zA-Z0-9-]` characters, `re.findall` style. -/
def splitRunsAux : List Char → List Char → List (List Char)
  | [], cur => if cur.isEmpty then [] else [cur.reverse]
  | c :: rest, cur =>
    if c.isAlphanum || c = '-' then splitRunsAux rest (c :: cur)
    else if cur.isEmpty then splitRunsAux rest []
    else cur.reverse :: splitRunsAux rest []

def splitRuns (cs : List Char) : List (List Char) := splitRunsAux cs []

/-- `20\d\d` (`re.fullmatch(r"20\d{2}", token)`). -/
def isYearTok : List Char → Bool
  | ['2', '0', a, b] => a.isDigit && b.isDigit
  | _ => false

/-- `tokenize` (build_trends_json.py lines 593-624) over already lowered
text: length ≥ 4, not a stopword, not all digits, not a year, not a URL
fragment, not a vendor-only keyword. -/
def tokenize (cs : List Char) : List String :=
  (splitRuns cs).filterMap
    (fun t =>
      let s := String.mk t
      if t.length < 4 then none
      else if s ∈ STOPWORDS then none
      else if t.all Char.isDigit then none
      else if isYearTok t then none
      else if s ∈ (["http", "https", "www", "com"] : List String) then none
      else if s ∈ KEYWORD_VENDOR_STOPWORDS then none
      else some s)

/-- `get_categories` (lines 628-649) on a Recency Store item: its
`smart_groups` (an empty list is falsy and the `categories`/`tags`/
`category` keys are absent on these items), stripped, empties dropped. -/
def get_categories (e : Item) : List String :=
  (e.smart_groups.map (fun c => String.mk (stripChars c.data))).filter (fun c => c != "")

/-- A `collections.Counter` with its insertion order. -/
abbrev CounterL := List (String × Nat)

/-- `counter[k] += 1`: bump in place or append with count 1. -/
def bump (c : CounterL) (k : String) : CounterL :=
  match c with
  | [] => [(k, 1)]
  | (k1, n) :: t => if k1 = k then (k1, n + 1) :: t else (k1, n) :: bump t k

def bumpAll (c : CounterL) (ks : List String) : CounterL := ks.foldl bump c

def countOf (c : CounterL) (k : String) : Nat :=
  match lookupK k c with
  | some n => n
  | none => 0

/-- Dedup keeping the first occurrence (used where the source builds a
`set` and only membership matters). -/
def dedupFAux : List String → List String → List String
  | _, [] => []
  | seen, x :: t => if x ∈ seen then dedupFAux seen t else x :: dedupFAux (x :: seen) t

def dedupF (l : List String) : List String := dedupFAux [] l

/-- The five per-window frequency tables. -/
structure WinTabs where
  cats : CounterL := []
  kws : CounterL := []
  vendors : CounterL := []
  trends : CounterL := []
  cves : CounterL := []
deriving DecidableEq, Repr

/-- The accumulator state of the trends `main` loop. -/
structure TState where
  daily : CounterL := []
  wins : List ((String × Nat) × WinTabs) := []
  taDaily : CounterL := []
  taNames : List (String × CounterL) := []
deriving DecidableEq, Repr

def initTState : TState := { wins := WINDOWS.map (fun w => (w, {})) }

/-- `threat_actor_daily_names[day][canonical] += 1` over a set of names
(no day entry is created when the set is empty). -/
def bumpNamesFor (tn : List (String × CounterL)) (day : String) (names : List String) :
    List (String × CounterL) :=
  if names.isEmpty then tn
  else
    insertKV tn day
      (names.foldl bump
        (match lookupK day tn with
         | some c => c
         | none => []))

/-- Update of the five tables of one window by one in-window entry. -/
def bumpTabs (t : WinTabs) (cats toks vds tds cvs : List String) : WinTabs :=
  { cats := bumpAll t.cats cats, kws := bumpAll t.kws toks,
    vendors := bumpAll t.vendors vds, trends := bumpAll t.trends tds,
    cves := bumpAll t.cves cvs }

/-- The per-entry body of the trends `main` loop (build_trends_json.py
lines 683-755): skip undated entries; bump the global daily counter; the
threat-actor daily count and per-day name counter; and, for each window
containing the entry, its five frequency tables. -/
def procEntry (now : Int) (st : TState) (e : Item) : TState :=
  match entryDate e with
  | none => st
  | some dt =>
    let day := isoDateStr dt
    let text := normalize_text e
    let canons := (dedupF (scanNames text)).map canonicalOf
    let cats := get_categories e
    let toks := tokenize text
    let vds := vendorHits text
    let tds := trendHits text
    let cvs := cveHits text
    { daily := bump st.daily day,
      wins := st.wins.map
        (fun wt =>
          if within_window dt now wt.1.2 then (wt.1, bumpTabs wt.2 cats toks vds tds cvs) else wt),
      taDaily := if has_actor text then bump st.taDaily day else st.taDaily,
      taNames := bumpNamesFor st.taNames day canons }

/-- The whole trends accumulation pass. -/
def runTrends (entries : List Item) (now : Int) : TState :=
  entries.foldl (procEntry now) initTState

/-- `Counter.most_common(n)`: stable sort by count descending (ties keep
counter insertion order, as `heapq.nlargest` does), first `n`. -/
def most_common (c : CounterL) (n : Nat) : List (String × Nat) :=
  (sortDescBy (fun p => (p.2 : Int)) c).take n

/-- Python string `<` (code-point lexicographic). -/
def lexLtChars : List Char → List Char → Bool
  | [], [] => false
  | [], _ :: _ => true
  | _ :: _, [] => false
  | a :: as, b :: bs => if a < b then true else if b < a then false else lexLtChars as bs

def strLtB (a b : String) : Bool := lexLtChars a.data b.data

/-- The `threat_actor_daily` output (lines 799-808): for each day with an
actor mention, in ascending day order, the day's count and the top-5
canonical names with counts. -/
def threat_actor_daily (entries : List Item) (now : Int) :
    List (String × Nat × List (String × Nat)) :=
  let st := runTrends entries now
  (sortAscBy strLtB (st.taDaily.map Prod.fst)).map
    (fun d =>
      (d, countOf st.taDaily d,
        most_common
          (match lookupK d st.taNames with
           | some c => c
           | none => []) 5))

/-! ### Derived definitions used by the statements -/

/-- The spec's per-window inclusion predicate: an item contributes iff its
resolved timestamp satisfies `now - duration <= published_at` (lower bound
inclusive), independently of any other window. -/
def contributes (e : Item) (now : Int) (days : Nat) : Bool :=
  match entryDate e with
  | some dt => decide (now - (days : Int) * 86400 ≤ dt)
  | none => false

/-- The closed form of one window's five tables: a fold over the entries
gated only by that window's own duration. -/
def windowTabs (entries : List Item) (now : Int) (days : Nat) : WinTabs :=
  entries.foldl
    (fun t e =>
      if contributes e now days then
        bumpTabs t (get_categories e) (tokenize (normalize_text e))
          (vendorHits (normalize_text e)) (trendHits (normalize_text e))
          (cveHits (normalize_text e))
      else t)
    {}

/-- The per-day canonical-name counter accumulated for day `d`. -/
def dayNamesCounter (entries : List Item) (now : Int) (d : String) : CounterL :=
  match lookupK d (runTrends entries now).taNames with
  | some c => c
  | none => []

/-- The contribution of a single item to one canonical entity's per-day
count: the number of distinct matched surfaces canonicalizing to it. -/
def itemActorContrib (e : Item) (c : String) : Nat :=
  ((dedupF (scanNames (normalize_text e))).map canonicalOf).count c

/-- The contribution of one entry to `dayNamesCounter entries now d` at
canonical name `c`. -/
def perDayContrib (e : Item) (d c : String) : Nat :=
  match entryDate e with
  | some dt => if isoDateStr dt = d then itemActorContrib e c else 0
  | none => 0

/-- Whether the preload phase keeps an existing item (the insert condition
of `preloadStep`). -/
def preKept (cutoff : Int) (it : Item) : Bool :=
  match it.link with
  | none => false
  | some l =>
    if l = "" then false
    else
      match it.published_ts with
      | none => true
      | some ts =>
        if FROMTS_MIN ≤ ts ∧ ts ≤ FROMTS_MAX then (if ts < cutoff then false else true) else true

/-! ### Concrete inputs used by counterexamples and witnesses -/

def c2A : Item := { link := some ("L"), published_ts := some 200 }

def c2B : Item := { link := some ("L"), published_ts := some 100 }

def c3A : Item := { link := some ("L"), title := some ("a"), published_ts := some 100 }

def c3B : Item := { link := some ("L"), title := some ("b"), published_ts := some 200 }

def noKeyItem : Item := {}

def c5Nov : Item := { link := some ("n"), published_ts := some 1762000000 }

def c5Dec : Item := { link := some ("d"), published_ts := some 1764600000 }

def c5Store : Int × Int → JFile :=
  fun k => if k = (2025, 11) then JFile.jdictNoItems else JFile.missing

def c5StoreOk : Int × Int → JFile := fun _ => JFile.missing

def c5PreStore : Int × Int → JFile :=
  fun k => if k = (2025, 12) then JFile.jdictNoItems else JFile.missing

def c6A : Item := { link := some ("a"), published_ts := some (-100) }

def c6B : Item := { link := some ("b") }

def c8E1 : Item := { title := some ("Turla strikes"), published := some ("2025-11-05T10:00:00+00:00") }

def c8E2 : Item := { title := some ("Akira attack"), published := some ("2025-11-05T11:00:00+00:00") }

def c9E1 : Item := { title := some ("TURLA and turla strike"), published := some ("2025-11-05T10:00:00+00:00") }

def c9E2 : Item := { title := some ("Turla once more"), published := some ("2025-11-05T11:00:00+00:00") }

def c10U : Item := { link := some ("u"), title := some ("t") }

def c10G : Item := { link := some ("u"), title := some ("g"), published_ts := some 50 }

def c10B : Item := { link := some ("u"), title := some ("b"), published_ts := some (-5) }

/-! ## Lemmas about association lists (Python dicts) -/

theorem lookupK_insertKV {κ α : Type} [DecidableEq κ] (m : List (κ × α)) (k k' : κ) (v : α) :
    lookupK k' (insertKV m k v) = if k = k' then some v else lookupK k' m := by
  induction m with
  | nil => simp [insertKV, lookupK]
  | cons p t ih =>
    obtain ⟨k1, v1⟩ := p
    by_cases h1 : k1 = k
    · subst h1
      by_cases h2 : k1 = k'
      · subst h2
        simp [insertKV, lookupK]
      · simp [insertKV, lookupK, h2]
    · by_cases h2 : k1 = k'
      · subst h2
        have hk : ¬k = k1 := fun h => h1 h.symm
        simp [insertKV, lookupK, h1, hk]
      · simp [insertKV, lookupK, h1, h2, ih]

theorem keys_insertKV {κ α : Type} [DecidableEq κ] (m : List (κ × α)) (k : κ) (v : α) :
    (insertKV m k v).map Prod.fst =
      if k ∈ m.map Prod.fst then m.map Prod.fst else m.map Prod.fst ++ [k] := by
  induction m with
  | nil => simp [insertKV]
  | cons p t ih =>
    obtain ⟨k1, v1⟩ := p
    by_cases h1 : k1 = k
    · subst h1
      simp [insertKV]
    · have hk : ¬k = k1 := fun h => h1 h.symm
      by_cases h2 : k ∈ t.map Prod.fst
      · simp [insertKV, h1, ih, h2, hk]
      · simp [insertKV, h1, ih, h2, hk]

theorem nodup_keys_insertKV {κ α : Type} [DecidableEq κ] (m : List (κ × α)) (k : κ) (v : α)
    (h : (m.map Prod.fst).Nodup) : ((insertKV m k v).map Prod.fst).Nodup := by
  rw [keys_insertKV]
  by_cases hk : k ∈ m.map Prod.fst
  · simpa [hk]
  · simpa [hk, List.nodup_append]

theorem mem_insertKV {κ α : Type} [DecidableEq κ] :
    ∀ (m : List (κ × α)) (k : κ) (v : α) (p : κ × α), p ∈ insertKV m k v → p ∈ m ∨ p = (k, v)
  | [], k, v, p, h => by simpa [insertKV] using h
  | (k1, v1) :: t, k, v, p, h => by
    by_cases h1 : k1 = k
    · subst h1
      rcases List.mem_cons.mp (by simpa [insertKV] using h) with h' | h'
      · exact Or.inr (by simpa using h')
      · exact Or.inl (List.mem_cons_of_mem _ h')
    · rcases List.mem_cons.mp (by simpa [insertKV, h1] using h) with h' | h'
      · exact Or.inl (by simp [h'])
      · rcases mem_insertKV t k v p h' with h2 | h2
        · exact Or.inl (List.mem_cons_of_mem _ h2)
        · exact Or.inr h2

theorem lookupK_eq_none {κ α : Type} [DecidableEq κ] (m : List (κ × α)) (k : κ) :
    lookupK k m = none ↔ k ∉ m.map Prod.fst := by
  induction m with
  | nil => simp [lookupK]
  | cons p t ih =>
    obtain ⟨k1, v1⟩ := p
    by_cases h1 : k1 = k
    · subst h1
      simp [lookupK]
    · have hk : ¬k = k1 := fun h => h1 h.symm
      simp [lookupK, h1, ih, hk]

theorem lookupK_some_mem {κ α : Type} [DecidableEq κ] {m : List (κ × α)} {k : κ} {v : α}
    (h : lookupK k m = some v) : (k, v) ∈ m := by
  induction m with
  | nil => simp [lookupK] at h
  | cons p t ih =>
    obtain ⟨k1, v1⟩ := p
    by_cases h1 : k1 = k
    · subst h1
      simp [lookupK] at h
      subst h
      exact List.mem_cons_self _ _
    · simp only [lookupK, if_neg h1] at h
      exact List.mem_cons_of_mem _ (ih h)

theorem mem_lookupK {κ α : Type} [DecidableEq κ] {m : List (κ × α)} {k : κ} {v : α}
    (hnd : (m.map Prod.fst).Nodup) (h : (k, v) ∈ m) : lookupK k m = some v := by
  induction m with
  | nil => simp at h
  | cons p t ih =>
    obtain ⟨k1, v1⟩ := p
    simp only [List.map_cons, List.nodup_cons] at hnd
    rcases List.mem_cons.mp h with h' | h'
    · cases h'
      simp [lookupK]
    · have hk1 : ¬k1 = k := by
        intro hkk
        subst hkk
        exact hnd.1 (List.mem_map_of_mem Prod.fst h')
      simp only [lookupK, if_neg hk1]
      exact ih hnd.2 h'

theorem eraseK_sublist {κ α : Type} [DecidableEq κ] (k : κ) (m : List (κ × α)) :
    (eraseK k m).Sublist m := by
  induction m with
  | nil => simp [eraseK]
  | cons p t ih =>
    obtain ⟨k1, v1⟩ := p
    by_cases h1 : k1 = k
    · simp only [eraseK, if_pos h1]
      exact List.sublist_cons_self _ _
    · simp only [eraseK, if_neg h1]
      exact List.Sublist.cons₂ _ ih

theorem nodup_keys_eraseK {κ α : Type} [DecidableEq κ] (k : κ) (m : List (κ × α))
    (h : (m.map Prod.fst).Nodup) : ((eraseK k m).map Prod.fst).Nodup :=
  List.Nodup.sublist (List.Sublist.map Prod.fst (eraseK_sublist k m)) h

theorem perm_cons_eraseK {κ α : Type} [DecidableEq κ] {m : List (κ × α)} {k : κ} {v : α}
    (h : lookupK k m = some v) : m.Perm ((k, v) :: eraseK k m) := by
  induction m with
  | nil => simp [lookupK] at h
  | cons p t ih =>
    obtain ⟨k1, v1⟩ := p
    by_cases h1 : k1 = k
    · subst h1
      simp [lookupK] at h
      subst h
      simp [eraseK]
    · simp only [lookupK, if_neg h1] at h
      have hperm := ih h
      have hsw : ((k1, v1) :: t).Perm ((k, v) :: (k1, v1) :: eraseK k t) :=
        (hperm.cons _).trans (List.Perm.swap _ _ _)
      have herase : eraseK k ((k1, v1) :: t) = (k1, v1) :: eraseK k t := by
        simp [eraseK, h1]
      rw [herase]
      exact hsw

theorem lookupK_eraseK_ne {κ α : Type} [DecidableEq κ] (m : List (κ × α)) {k k' : κ}
    (h : k' ≠ k) : lookupK k' (eraseK k m) = lookupK k' m := by
  induction m with
  | nil => simp [eraseK]
  | cons p t ih =>
    obtain ⟨k1, v1⟩ := p
    by_cases h1 : k1 = k
    · subst h1
      have hk : ¬k1 = k' := fun hq => h hq.symm
      simp [eraseK, lookupK, hk]
    · by_cases h2 : k1 = k'
      · subst h2
        simp [eraseK, lookupK, h1]
      · simp [eraseK, lookupK, h1, h2, ih]

theorem lookupK_eraseK_self {κ α : Type} [DecidableEq κ] (m : List (κ × α)) (k : κ)
    (hnd : (m.map Prod.fst).Nodup) : lookupK k (eraseK k m) = none := by
  induction m with
  | nil => simp [eraseK, lookupK]
  | cons p t ih =>
    obtain ⟨k1, v1⟩ := p
    simp only [List.map_cons, List.nodup_cons] at hnd
    by_cases h1 : k1 = k
    · subst h1
      rw [eraseK, if_pos rfl, lookupK_eq_none]
      exact hnd.1
    · simp [eraseK, lookupK, h1, ih hnd.2]

theorem perm_of_lookupK_eq {κ α : Type} [DecidableEq κ] :
    ∀ (m1 m2 : List (κ × α)), (m1.map Prod.fst).Nodup → (m2.map Prod.fst).Nodup →
      (∀ k, lookupK k m1 = lookupK k m2) → m1.Perm m2
  | [], m2, _, _, h => by
    cases m2 with
    | nil => exact List.Perm.refl _
    | cons p t =>
      obtain ⟨k1, v1⟩ := p
      have h1 := h k1
      simp [lookupK] at h1
  | (k, v) :: t1, m2, hnd1, hnd2, h => by
    have hl2 : lookupK k m2 = some v := by
      rw [← h k]
      simp [lookupK]
    have hperm2 : m2.Perm ((k, v) :: eraseK k m2) := perm_cons_eraseK hl2
    simp only [List.map_cons, List.nodup_cons] at hnd1
    have htail : t1.Perm (eraseK k m2) := by
      apply perm_of_lookupK_eq t1 (eraseK k m2) hnd1.2 (nodup_keys_eraseK k m2 hnd2)
      intro k'
      by_cases hk : k' = k
      · subst hk
        rw [lookupK_eraseK_self m2 k' hnd2, lookupK_eq_none]
        exact hnd1.1
      · have hk2 : ¬k = k' := fun hq => hk hq.symm
        rw [lookupK_eraseK_ne m2 hk, ← h k']
        simp [lookupK, hk2]
    exact (htail.cons (k, v)).trans hperm2.symm

/-! ## Lemmas about `lastWith` (dict-insertion survivors) -/

theorem lastWith_append {α κ : Type} [DecidableEq κ] (keyOf : α → κ) (k : κ) (a b : List α) :
    lastWith keyOf k (a ++ b) =
      match lastWith keyOf k b with
      | some v => some v
      | none => lastWith keyOf k a := by
  induction a with
  | nil =>
    simp only [List.nil_append]
    cases lastWith keyOf k b <;> simp [lastWith]
  | cons x t ih =>
    rcases hb : lastWith keyOf k b with _ | w
    · simp only [hb] at ih
      simp only [List.cons_append, List.append_eq, lastWith, ih, hb]
    · simp only [hb] at ih
      simp only [List.cons_append, List.append_eq, lastWith, ih, hb]

theorem lastWith_mem {α κ : Type} [DecidableEq κ] {keyOf : α → κ} {k : κ} :
    ∀ {l : List α} {v : α}, lastWith keyOf k l = some v → v ∈ l ∧ keyOf v = k
  | [], v, h => by simp [lastWith] at h
  | x :: t, v, h => by
    rw [lastWith] at h
    rcases hl : lastWith keyOf k t with _ | w
    · rw [hl] at h
      by_cases hx : keyOf x = k
      · simp only [if_pos hx] at h
        cases h
        exact ⟨List.mem_cons_self _ _, hx⟩
      · simp [hx] at h
    · rw [hl] at h
      cases h
      obtain ⟨hm, hk⟩ := lastWith_mem hl
      exact ⟨List.mem_cons_of_mem _ hm, hk⟩

theorem lastWith_eq_none {α κ : Type} [DecidableEq κ] {keyOf : α → κ} {k : κ} :
    ∀ {l : List α}, lastWith keyOf k l = none ↔ ∀ v ∈ l, keyOf v ≠ k
  | [] => by simp [lastWith]
  | x :: t => by
    rw [lastWith]
    rcases hl : lastWith keyOf k t with _ | w
    · by_cases hx : keyOf x = k
      · simp only [if_pos hx]
        constructor
        · intro h; cases h
        · intro h
          exact absurd hx (h x (List.mem_cons_self _ _))
      · simp only [if_neg hx]
        constructor
        · intro _ v hv
          rcases List.mem_cons.mp hv with rfl | hv'
          · exact hx
          · exact (lastWith_eq_none.mp hl) v hv'
        · intro _
          trivial
    · constructor
      · intro h; cases h
      · intro h
        obtain ⟨hm, hk⟩ := lastWith_mem hl
        exact absurd hk (h w (List.mem_cons_of_mem _ hm))

theorem lastWith_unique {α κ : Type} [DecidableEq κ] {keyOf : α → κ} {k : κ} :
    ∀ {l : List α} {v : α}, (l.map keyOf).Nodup → v ∈ l → keyOf v = k →
      lastWith keyOf k l = some v
  | [], v, _, hv, _ => absurd hv (List.not_mem_nil v)
  | x :: t, v, hnd, hv, hk => by
    simp only [List.map_cons, List.nodup_cons] at hnd
    rcases List.mem_cons.mp hv with rfl | hv'
    · have ht : lastWith keyOf k t = none := by
        rw [lastWith_eq_none]
        intro w hw hkw
        exact hnd.1 (hk ▸ hkw ▸ List.mem_map_of_mem keyOf hw)
      simp only [lastWith, ht, if_pos hk]
    · simp only [lastWith, lastWith_unique hnd.2 hv' hk]

theorem lastWith_filter {α κ : Type} [DecidableEq κ] {keyOf : α → κ} {k : κ} {keep : α → Bool} :
    ∀ {l : List α} {v : α}, lastWith keyOf k l = some v → keep v = true →
      lastWith keyOf k (l.filter keep) = some v
  | [], v, h, _ => by simp [lastWith] at h
  | x :: t, v, h, hkeep => by
    rw [lastWith] at h
    rcases hl : lastWith keyOf k t with _ | w
    · rw [hl] at h
      by_cases hx : keyOf x = k
      · simp only [if_pos hx] at h
        cases h
        have hfilt : lastWith keyOf k (t.filter keep) = none := by
          rw [lastWith_eq_none]
          intro w hw
          exact (lastWith_eq_none.mp hl) w (List.mem_of_mem_filter hw)
        simp only [List.filter_cons, hkeep]
        simp only [lastWith, hfilt, if_pos hx]
      · simp [hx] at h
    · rw [hl] at h
      cases h
      have := lastWith_filter hl hkeep
      cases hkx : keep x
      · simp [List.filter_cons, hkx, this]
      · simp only [List.filter_cons, hkx]
        simp only [lastWith, this]

/-! ## Lemmas about `buildMap` -/

theorem buildFold_coherent (l : List Item) :
    ∀ (m : List (DedupKey × Item)), (∀ p ∈ m, key_for p.2 = p.1) →
      ∀ p ∈ l.foldl (fun m it => insertKV m (key_for it) it) m, key_for p.2 = p.1 := by
  induction l with
  | nil => intro m hm p hp; exact hm p hp
  | cons x t ih =>
    intro m hm p hp
    refine ih _ ?_ p hp
    intro q hq
    rcases mem_insertKV _ _ _ _ hq with h' | h'
    · exact hm q h'
    · subst h'; rfl

theorem buildMap_coherent {l : List Item} {p : DedupKey × Item} (hp : p ∈ buildMap l) :
    key_for p.2 = p.1 :=
  buildFold_coherent l [] (by intro q hq; simp at hq) p hp

theorem buildFold_keys_nodup (l : List Item) :
    ∀ (m : List (DedupKey × Item)), (m.map Prod.fst).Nodup →
      (((l.foldl (fun m it => insertKV m (key_for it) it) m).map Prod.fst)).Nodup := by
  induction l with
  | nil => intro m hm; exact hm
  | cons x t ih =>
    intro m hm
    exact ih _ (nodup_keys_insertKV m (key_for x) x hm)

theorem buildMap_keys_nodup (l : List Item) : ((buildMap l).map Prod.fst).Nodup :=
  buildFold_keys_nodup l [] (by simp)

theorem lookupK_buildFold (k : DedupKey) (l : List Item) :
    ∀ (m : List (DedupKey × Item)),
      lookupK k (l.foldl (fun m it => insertKV m (key_for it) it) m) =
        match lastWith key_for k l with
        | some v => some v
        | none => lookupK k m := by
  induction l with
  | nil => intro m; simp [lastWith]
  | cons x t ih =>
    intro m
    simp only [List.foldl_cons, ih, lastWith, lookupK_insertKV]
    rcases lastWith key_for k t with _ | w
    · by_cases hx : key_for x = k
      · simp [hx]
      · simp [hx]
    · simp

theorem lookupK_buildMap (k : DedupKey) (l : List Item) :
    lookupK k (buildMap l) = lastWith key_for k l := by
  rw [buildMap, lookupK_buildFold]
  rcases lastWith key_for k l with _ | w <;> simp [lookupK]

theorem mem_buildMap_values {l : List Item} {v : Item} :
    v ∈ (buildMap l).map Prod.snd ↔ lookupK (key_for v) (buildMap l) = some v := by
  constructor
  · intro h
    rcases List.mem_map.mp h with ⟨p, hp, hv⟩
    have hk := buildMap_coherent hp
    subst hv
    rw [hk]
    have hp2 : (p.1, p.2) ∈ buildMap l := by simpa using hp
    exact mem_lookupK (buildMap_keys_nodup l) hp2
  · intro h
    exact List.mem_map.mpr ⟨(key_for v, v), lookupK_some_mem h, rfl⟩

/-! ## Lemmas about the stable sorts -/

theorem insDescBy_perm {α : Type} (keyOf : α → Int) (x : α) :
    ∀ (l : List α), (insDescBy keyOf x l).Perm (x :: l)
  | [] => List.Perm.refl _
  | y :: ys => by
    by_cases h : keyOf y < keyOf x
    · simp only [insDescBy, if_pos h]
      exact List.Perm.refl _
    · simp only [insDescBy, if_neg h]
      exact ((insDescBy_perm keyOf x ys).cons y).trans (List.Perm.swap x y ys)

theorem sortDescBy_foldl_perm {α : Type} (keyOf : α → Int) :
    ∀ (l acc : List α), (l.foldl (fun acc x => insDescBy keyOf x acc) acc).Perm (acc ++ l)
  | [], acc => by simp
  | x :: t, acc => by
    simp only [List.foldl_cons]
    have h1 := sortDescBy_foldl_perm keyOf t (insDescBy keyOf x acc)
    have h2 : (insDescBy keyOf x acc ++ t).Perm (acc ++ x :: t) := by
      have hx := (insDescBy_perm keyOf x acc).append_right t
      exact hx.trans (List.perm_middle.symm)
    exact h1.trans h2

theorem sortDescBy_perm {α : Type} (keyOf : α → Int) (l : List α) :
    (sortDescBy keyOf l).Perm l := by
  simpa using sortDescBy_foldl_perm keyOf l []

theorem insDescBy_pairwise {α : Type} (keyOf : α → Int) (x : α) :
    ∀ (l : List α), List.Pairwise (fun a b => keyOf b ≤ keyOf a) l →
      List.Pairwise (fun a b => keyOf b ≤ keyOf a) (insDescBy keyOf x l)
  | [], _ => by simp [insDescBy]
  | y :: ys, h => by
    rcases List.pairwise_cons.mp h with ⟨hy, hys⟩
    by_cases hlt : keyOf y < keyOf x
    · simp only [insDescBy, if_pos hlt]
      refine List.pairwise_cons.mpr ⟨?_, h⟩
      intro b hb
      rcases List.mem_cons.mp hb with rfl | hb'
      · exact le_of_lt hlt
      · exact le_trans (hy b hb') (le_of_lt hlt)
    · simp only [insDescBy, if_neg hlt]
      refine List.pairwise_cons.mpr ⟨?_, insDescBy_pairwise keyOf x ys hys⟩
      intro b hb
      rcases List.mem_cons.mp ((insDescBy_perm keyOf x ys).mem_iff.mp hb) with h' | h'
      · subst h'
        exact le_of_not_lt hlt
      · exact hy b h'

theorem sortDescBy_foldl_pairwise {α : Type} (keyOf : α → Int) :
    ∀ (l acc : List α), List.Pairwise (fun a b => keyOf b ≤ keyOf a) acc →
      List.Pairwise (fun a b => keyOf b ≤ keyOf a)
        (l.foldl (fun acc x => insDescBy keyOf x acc) acc)
  | [], _, h => h
  | x :: t, acc, h => by
    simp only [List.foldl_cons]
    exact sortDescBy_foldl_pairwise keyOf t _ (insDescBy_pairwise keyOf x acc h)

theorem sortDescBy_pairwise {α : Type} (keyOf : α → Int) (l : List α) :
    List.Pairwise (fun a b => keyOf b ≤ keyOf a) (sortDescBy keyOf l) :=
  sortDescBy_foldl_pairwise keyOf l [] (by simp)

theorem insDescBy_filter_key {α : Type} (keyOf : α → Int) (c : Int) (x : α) :
    ∀ (l : List α), List.Pairwise (fun a b => keyOf b ≤ keyOf a) l →
      (insDescBy keyOf x l).filter (fun a => decide (keyOf a = c)) =
        if keyOf x = c then (l.filter (fun a => decide (keyOf a = c))) ++ [x]
        else l.filter (fun a => decide (keyOf a = c))
  | [], _ => by
    by_cases hx : keyOf x = c <;> simp [insDescBy, List.filter_cons, hx]
  | y :: ys, h => by
    rcases List.pairwise_cons.mp h with ⟨hy, hys⟩
    by_cases hlt : keyOf y < keyOf x
    · simp only [insDescBy, if_pos hlt]
      by_cases hx : keyOf x = c
      · have hystail : ∀ b ∈ y :: ys, keyOf b ≠ c := by
          intro b hb hbc
          rcases List.mem_cons.mp hb with rfl | hb'
          · omega
          · have hble := hy b hb'
            omega
        have hfilt : (y :: ys).filter (fun a => decide (keyOf a = c)) = [] := by
          rw [List.filter_eq_nil_iff]
          intro b hb
          simpa using hystail b hb
        simp [List.filter_cons, hx, hfilt]
      · simp [List.filter_cons, hx]
    · simp only [insDescBy, if_neg hlt]
      by_cases hyc : keyOf y = c
      · simp [List.filter_cons, hyc, insDescBy_filter_key keyOf c x ys hys]
        by_cases hx : keyOf x = c <;> simp [hx]
      · simp [List.filter_cons, hyc, insDescBy_filter_key keyOf c x ys hys]

theorem sortDescBy_foldl_filter_key {α : Type} (keyOf : α → Int) (c : Int) :
    ∀ (l acc : List α), List.Pairwise (fun a b => keyOf b ≤ keyOf a) acc →
      (l.foldl (fun acc x => insDescBy keyOf x acc) acc).filter (fun a => decide (keyOf a = c)) =
        acc.filter (fun a => decide (keyOf a = c)) ++ l.filter (fun a => decide (keyOf a = c))
  | [], acc, _ => by simp
  | x :: t, acc, h => by
    simp only [List.foldl_cons]
    rw [sortDescBy_foldl_filter_key keyOf c t _ (insDescBy_pairwise keyOf x acc h)]
    rw [insDescBy_filter_key keyOf c x acc h]
    by_cases hx : keyOf x = c
    · simp [List.filter_cons, hx]
    · simp [List.filter_cons, hx]

theorem sortDescBy_filter_key {α : Type} (keyOf : α → Int) (c : Int) (l : List α) :
    (sortDescBy keyOf l).filter (fun a => decide (keyOf a = c)) =
      l.filter (fun a => decide (keyOf a = c)) := by
  simpa using sortDescBy_foldl_filter_key keyOf c l [] (by simp)

theorem insAscBy_perm {κ : Type} (lt : κ → κ → Bool) (x : κ) :
    ∀ (l : List κ), (insAscBy lt x l).Perm (x :: l)
  | [] => List.Perm.refl _
  | y :: ys => by
    by_cases h : lt x y
    · simp only [insAscBy, if_pos h]
      exact List.Perm.refl _
    · simp only [insAscBy, if_neg h]
      exact ((insAscBy_perm lt x ys).cons y).trans (List.Perm.swap x y ys)

theorem sortAscBy_foldl_perm {κ : Type} (lt : κ → κ → Bool) :
    ∀ (l acc : List κ), (l.foldl (fun acc x => insAscBy lt x acc) acc).Perm (acc ++ l)
  | [], acc => by simp
  | x :: t, acc => by
    simp only [List.foldl_cons]
    have h1 := sortAscBy_foldl_perm lt t (insAscBy lt x acc)
    have h2 : (insAscBy lt x acc ++ t).Perm (acc ++ x :: t) :=
      ((insAscBy_perm lt x acc).append_right t).trans (List.perm_middle.symm)
    exact h1.trans h2

theorem sortAscBy_perm {κ : Type} (lt : κ → κ → Bool) (l : List κ) :
    (sortAscBy lt l).Perm l := by
  simpa using sortAscBy_foldl_perm lt l []

/-! ## Characterization of `merge_and_dedup` -/

theorem merge_keeps_last {e n : List Item} {k : DedupKey} {v : Item}
    (h : lastWith key_for k (e ++ n) = some v) :
    v ∈ merge_and_dedup e n ∧ ∀ w ∈ merge_and_dedup e n, key_for w = k → w = v := by
  have hk : key_for v = k := (lastWith_mem h).2
  have hl : lookupK (key_for v) (buildMap (e ++ n)) = some v := by
    rw [lookupK_buildMap, hk]
    exact h
  have hmem : v ∈ (buildMap (e ++ n)).map Prod.snd := mem_buildMap_values.mpr hl
  constructor
  · exact (sortDescBy_perm sort_key _).mem_iff.mpr hmem
  · intro w hw hwk
    have hmemw : w ∈ (buildMap (e ++ n)).map Prod.snd :=
      (sortDescBy_perm sort_key _).mem_iff.mp hw
    have hlw : lookupK (key_for w) (buildMap (e ++ n)) = some w := mem_buildMap_values.mp hmemw
    rw [hwk, lookupK_buildMap, h] at hlw
    exact (Option.some.inj hlw).symm

theorem merge_keys_nodup (e n : List Item) :
    ((merge_and_dedup e n).map key_for).Nodup := by
  have hperm : ((merge_and_dedup e n).map key_for).Perm
      (((buildMap (e ++ n)).map Prod.snd).map key_for) :=
    (sortDescBy_perm sort_key _).map key_for
  have heq : ((buildMap (e ++ n)).map Prod.snd).map key_for = (buildMap (e ++ n)).map Prod.fst := by
    rw [List.map_map]
    exact List.map_congr_left (fun p hp => buildMap_coherent hp)
  have hnd : (((buildMap (e ++ n)).map Prod.snd).map key_for).Nodup := by
    rw [heq]
    exact buildMap_keys_nodup _
  exact hnd.perm hperm.symm

theorem mem_merge_iff {e n : List Item} {v : Item} :
    v ∈ merge_and_dedup e n ↔ lastWith key_for (key_for v) (e ++ n) = some v := by
  constructor
  · intro hv
    have hmem : v ∈ (buildMap (e ++ n)).map Prod.snd :=
      (sortDescBy_perm sort_key _).mem_iff.mp hv
    have := mem_buildMap_values.mp hmem
    rwa [lookupK_buildMap] at this
  · intro h
    exact (merge_keeps_last h).1

/-- Core idempotence: merging the already-merged partition with the same
bucket again yields the same item multiset. -/
theorem merge_idem (e n : List Item) :
    (merge_and_dedup (merge_and_dedup e n) n).Perm (merge_and_dedup e n) := by
  have hlast : ∀ k, lastWith key_for k (merge_and_dedup e n ++ n) =
      lastWith key_for k (e ++ n) := by
    intro k
    rw [lastWith_append, lastWith_append]
    rcases hn : lastWith key_for k n with _ | w
    · simp only []
      rcases he2 : lastWith key_for k (e ++ n) with _ | u
      · have heNone : lastWith key_for k e = none := by
          rw [lastWith_append, hn] at he2
          exact he2
        rw [heNone, lastWith_eq_none]
        intro v hv hk
        have := mem_merge_iff.mp hv
        rw [hk, he2] at this
        exact Option.noConfusion this
      · have heSome : lastWith key_for k e = some u := by
          rw [lastWith_append, hn] at he2
          exact he2
        rw [heSome]
        have hku : key_for u = k := (lastWith_mem he2).2
        have humem : u ∈ merge_and_dedup e n := mem_merge_iff.mpr (hku ▸ he2)
        exact lastWith_unique (merge_keys_nodup e n) humem hku
    · simp only []
  have hlu : ∀ k, lookupK k (buildMap (merge_and_dedup e n ++ n)) =
      lookupK k (buildMap (e ++ n)) := by
    intro k
    rw [lookupK_buildMap, lookupK_buildMap, hlast]
  have hmapPerm : (buildMap (merge_and_dedup e n ++ n)).Perm (buildMap (e ++ n)) :=
    perm_of_lookupK_eq _ _ (buildMap_keys_nodup _) (buildMap_keys_nodup _) hlu
  have h1 : (merge_and_dedup (merge_and_dedup e n) n).Perm
      ((buildMap (merge_and_dedup e n ++ n)).map Prod.snd) := sortDescBy_perm sort_key _
  have h2 : ((buildMap (merge_and_dedup e n ++ n)).map Prod.snd).Perm
      ((buildMap (e ++ n)).map Prod.snd) := hmapPerm.map Prod.snd
  have h3 : ((buildMap (e ++ n)).map Prod.snd).Perm (merge_and_dedup e n) :=
    (sortDescBy_perm sort_key _).symm
  exact (h1.trans h2).trans h3

/-! ## The compaction run -/

theorem itemsOfFile_jlist (l : List Item) : itemsOfFile (JFile.jlist l) = l := rfl

theorem loadOk_items {f : JFile} (h : loadOk f = true) :
    load_json_list f = Except.ok (itemsOfFile f) := by
  cases f <;> simp [loadOk, load_json_list, itemsOfFile] at h ⊢

theorem loadOk_error {f : JFile} (h : loadOk f = false) :
    ∃ e, load_json_list f = Except.error e := by
  cases f <;> simp [loadOk, load_json_list] at h ⊢

theorem compactFold_ok {κ : Type} [DecidableEq κ] :
    ∀ (pairs : List (κ × List Item)) (store : κ → JFile),
      (pairs.map Prod.fst).Nodup → (∀ p ∈ pairs, loadOk (store p.1)) →
      (compactFold store pairs).2 = none ∧
      ∀ k, (compactFold store pairs).1 k =
        match lookupK k pairs with
        | some bucket => JFile.jlist (merge_and_dedup (itemsOfFile (store k)) bucket)
        | none => store k
  | [], store, _, _ => by
    constructor
    · rfl
    · intro k
      simp [compactFold, lookupK]
  | (k0, b0) :: rest, store, hnd, hok => by
    have hok0 : loadOk (store k0) = true := hok _ (List.mem_cons_self _ _)
    have hload := loadOk_items hok0
    simp only [List.map_cons, List.nodup_cons] at hnd
    have hstep : compactFold store ((k0, b0) :: rest) =
        compactFold
          (fun k2 => if k2 = k0 then JFile.jlist (merge_and_dedup (itemsOfFile (store k0)) b0)
           else store k2) rest := by
      simp only [compactFold, hload]
    have hok2 : ∀ p ∈ rest,
        loadOk ((fun k2 => if k2 = k0 then JFile.jlist (merge_and_dedup (itemsOfFile (store k0)) b0)
          else store k2) p.1) := by
      intro p hp
      have hne : p.1 ≠ k0 := by
        intro hq
        exact hnd.1 (hq ▸ List.mem_map_of_mem Prod.fst hp)
      simp only [if_neg hne]
      exact hok p (List.mem_cons_of_mem _ hp)
    obtain ⟨he, hch⟩ :=
      compactFold_ok rest
        (fun k2 => if k2 = k0 then JFile.jlist (merge_and_dedup (itemsOfFile (store k0)) b0)
         else store k2) hnd.2 hok2
    rw [hstep]
    refine ⟨he, ?_⟩
    intro k
    rw [hch k]
    by_cases hk : k = k0
    · subst hk
      have hrest : lookupK k rest = none := by
        rw [lookupK_eq_none]
        exact hnd.1
      simp [lookupK, hrest]
    · have hne : ¬k0 = k := fun h => hk h.symm
      have hcons : lookupK k ((k0, b0) :: rest) = lookupK k rest := by
        simp [lookupK, hne]
      rw [hcons]
      rcases lookupK k rest with _ | b <;> simp [if_neg hk]

theorem firstKeys_foldl_nodup {κ : Type} [DecidableEq κ] (keyOf : Item → Option κ) :
    ∀ (items : List Item) (acc : List κ), acc.Nodup →
      (items.foldl
        (fun acc it =>
          match keyOf it with
          | none => acc
          | some k => if k ∈ acc then acc else acc ++ [k]) acc).Nodup
  | [], _, h => h
  | x :: t, acc, h => by
    simp only [List.foldl_cons]
    rcases hx : keyOf x with _ | k
    · exact firstKeys_foldl_nodup keyOf t acc h
    · by_cases hk : k ∈ acc
      · simp only [if_pos hk]
        exact firstKeys_foldl_nodup keyOf t acc h
      · simp only [if_neg hk]
        refine firstKeys_foldl_nodup keyOf t _ ?_
        simpa [List.nodup_append, hk] using h

theorem firstKeys_nodup {κ : Type} [DecidableEq κ] (keyOf : Item → Option κ)
    (items : List Item) : (firstKeys keyOf items).Nodup :=
  firstKeys_foldl_nodup keyOf items [] (by simp)

theorem bucketPairs_keys_nodup {κ : Type} [DecidableEq κ] (keyOf : Item → Option κ)
    (lt : κ → κ → Bool) (items : List Item) :
    ((bucketPairs keyOf lt items).map Prod.fst).Nodup := by
  have heq : (bucketPairs keyOf lt items).map Prod.fst = sortAscBy lt (firstKeys keyOf items) := by
    simp only [bucketPairs, List.map_map]
    exact List.map_id _
  rw [heq]
  exact (firstKeys_nodup keyOf items).perm (sortAscBy_perm lt _).symm

/-- A whole successful compaction pass is idempotent at the multiset level,
partition by partition. -/
theorem compactRun_idem {κ : Type} [DecidableEq κ] (store : κ → JFile)
    (pairs : List (κ × List Item)) (hnd : (pairs.map Prod.fst).Nodup)
    (hok : ∀ p ∈ pairs, loadOk (store p.1)) :
    (compactFold store pairs).2 = none ∧
    (compactFold (compactFold store pairs).1 pairs).2 = none ∧
    ∀ k, (itemsOfFile ((compactFold (compactFold store pairs).1 pairs).1 k)).Perm
      (itemsOfFile ((compactFold store pairs).1 k)) := by
  obtain ⟨he1, hch1⟩ := compactFold_ok pairs store hnd hok
  have hok2 : ∀ p ∈ pairs, loadOk ((compactFold store pairs).1 p.1) := by
    intro p hp
    have hl : lookupK p.1 pairs = some p.2 := mem_lookupK hnd (by simpa using hp)
    rw [hch1 p.1, hl]
    rfl
  obtain ⟨he2, hch2⟩ := compactFold_ok pairs _ hnd hok2
  refine ⟨he1, he2, ?_⟩
  intro k
  rw [hch2 k]
  rcases hlk : lookupK k pairs with _ | bucket
  · simp only []
    exact List.Perm.refl _
  · simp only []
    have h1 : (compactFold store pairs).1 k =
        JFile.jlist (merge_and_dedup (itemsOfFile (store k)) bucket) := by
      rw [hch1 k, hlk]
    rw [h1, itemsOfFile_jlist, itemsOfFile_jlist]
    exact merge_idem (itemsOfFile (store k)) bucket

/-! ## Claim C1 -/

/-- C1: archival compaction is idempotent.  For every Recency Store input
and every monthly/yearly partition store whose existing files load, running
the compaction twice (the second run merging the already-written partitions
with the same bucketed items) errors in neither run and yields, for every
monthly and every yearly partition, the same item multiset as running it
once. -/
theorem C1_compaction_idempotent (storeM : Int × Int → JFile) (storeY : Int → JFile)
    (recent : List Item)
    (hm : ∀ p ∈ bucketPairs bucket_month_of monthKeyLt recent, loadOk (storeM p.1))
    (hy : ∀ p ∈ bucketPairs bucket_year_of (fun a b => decide (a < b)) recent, loadOk (storeY p.1)) :
    ((runMonthly storeM recent).2 = none ∧
      (runMonthly (runMonthly storeM recent).1 recent).2 = none ∧
      ∀ k, (itemsOfFile ((runMonthly (runMonthly storeM recent).1 recent).1 k)).Perm
        (itemsOfFile ((runMonthly storeM recent).1 k))) ∧
    ((runYearly storeY recent).2 = none ∧
      (runYearly (runYearly storeY recent).1 recent).2 = none ∧
      ∀ k, (itemsOfFile ((runYearly (runYearly storeY recent).1 recent).1 k)).Perm
        (itemsOfFile ((runYearly storeY recent).1 k))) := by
  constructor
  · exact compactRun_idem storeM _ (bucketPairs_keys_nodup _ _ _) hm
  · exact compactRun_idem storeY _ (bucketPairs_keys_nodup _ _ _) hy

theorem C1_compaction_idempotent_witness :
    (itemsOfFile ((runMonthly (runMonthly (fun _ => JFile.missing) [c5Dec]).1 [c5Dec]).1
        (2025, 12))).Perm
      (itemsOfFile ((runMonthly (fun _ => JFile.missing) [c5Dec]).1 (2025, 12))) ∧
    (itemsOfFile ((runYearly (runYearly (fun _ => JFile.missing) [c5Dec]).1 [c5Dec]).1
        2025)).Perm
      (itemsOfFile ((runYearly (fun _ => JFile.missing) [c5Dec]).1 2025)) :=
  ⟨(C1_compaction_idempotent (fun _ => JFile.missing) (fun _ => JFile.missing) [c5Dec]
      (fun _ _ => rfl) (fun _ _ => rfl)).1.2.2 (2025, 12),
   (C1_compaction_idempotent (fun _ => JFile.missing) (fun _ => JFile.missing) [c5Dec]
      (fun _ _ => rfl) (fun _ _ => rfl)).2.2.2 2025⟩

/-! ## Claim C2 -/

/-- C2 (counterexample): the archival merge does not prefer the later
`published_at`.  Two items share the link key; the existing one has the
later timestamp (200), yet the merge keeps the incoming one (100). -/
theorem C2_counterexample :
    merge_and_dedup [c2A] [c2B] = [c2B] ∧
    key_for c2A = key_for c2B ∧
    (parse_published_dt c2A).map PyDT.epoch = some 200 ∧
    (parse_published_dt c2B).map PyDT.epoch = some 100 ∧
    c2A ∉ merge_and_dedup [c2A] [c2B] := by decide

/-- C2 (amended): for every pair of items sharing a Dedup Key, the merged
collection keeps exactly one item with that key — the last-supplied one
(`incoming` overwrites `existing`), independent of `published_at`. -/
theorem C2_amended_last_write_wins (e n : List Item) (k : DedupKey) (v : Item)
    (h : lastWith key_for k (e ++ n) = some v) :
    v ∈ merge_and_dedup e n ∧
    ∀ w ∈ merge_and_dedup e n, key_for w = k → w = v :=
  merge_keeps_last h

theorem C2_amended_last_write_wins_witness :
    c2B ∈ merge_and_dedup [c2A] [c2B] :=
  (C2_amended_last_write_wins [c2A] [c2B] (DedupKey.byLink ("L")) c2B (by decide)).1

/-! ## Claim C4 -/

/-- C4 (counterexample): an item lacking both Dedup Key components (no
link, no title, no source) is not dropped by `merge_and_dedup` — it
survives in the result (and the function returns a bare list, reporting no
dropped-item count at all). -/
theorem C4_counterexample :
    merge_and_dedup [] [noKeyItem] = [noKeyItem] ∧
    noKeyItem.link = none ∧ noKeyItem.title = none ∧ noKeyItem.source = none := by decide

/-- C4 (amended): items lacking both key components are retained, all
collapsing onto the shared fallback key `("title_source", None, None)`;
the merge keeps exactly the last such item and never fails, and no
diagnostic count exists in its result. -/
theorem C4_amended_keyless_kept (e n : List Item) (v : Item)
    (h : lastWith key_for (DedupKey.byTitleSource none none) (e ++ n) = some v) :
    v ∈ merge_and_dedup e n ∧
    ∀ w ∈ merge_and_dedup e n, key_for w = DedupKey.byTitleSource none none → w = v :=
  merge_keeps_last h

theorem C4_amended_keyless_kept_witness :
    noKeyItem ∈ merge_and_dedup [] [noKeyItem] :=
  (C4_amended_keyless_kept [] [noKeyItem] noKeyItem (by decide)).1

/-! ## Claim C5 -/

/-- C5 (counterexample): with the 2025-11 monthly partition file
structurally invalid, the run aborts: the 2025-12 monthly partition and
the 2025 yearly partition are left unwritten, although a run with a valid
store would have written `[c5Dec]` and `[c5Dec, c5Nov]` there.  The
failure is not confined to the invalid partition. -/
theorem C5_counterexample :
    (runMonthly c5Store [c5Nov, c5Dec]).2.isSome = true ∧
    (runMonthly c5Store [c5Nov, c5Dec]).1 (2025, 12) = JFile.missing ∧
    (runMonthly c5StoreOk [c5Nov, c5Dec]).1 (2025, 12) = JFile.jlist [c5Dec] ∧
    (runArchive c5Store (fun _ => JFile.missing) [c5Nov, c5Dec]).2.1 2025 = JFile.missing ∧
    (runArchive c5StoreOk (fun _ => JFile.missing) [c5Nov, c5Dec]).2.1 2025 =
      JFile.jlist [c5Dec, c5Nov] := by decide

/-- C5 (amended): an invalid partition file aborts the run at that point:
partitions processed before it (in sorted key order) are merged and
written as in a normal run, while the invalid partition and every later
one are left untouched. -/
theorem C5_amended_prefix_preserved {κ : Type} [DecidableEq κ] :
    ∀ (pre : List (κ × List Item)) (store : κ → JFile) (post : List (κ × List Item))
      (kf : κ) (bf : List Item),
      (pre.map Prod.fst).Nodup → kf ∉ pre.map Prod.fst →
      (∀ p ∈ pre, loadOk (store p.1)) → loadOk (store kf) = false →
      (compactFold store (pre ++ (kf, bf) :: post)).2.isSome = true ∧
      (∀ p ∈ pre, (compactFold store (pre ++ (kf, bf) :: post)).1 p.1 =
        JFile.jlist (merge_and_dedup (itemsOfFile (store p.1)) p.2)) ∧
      (∀ k, k ∉ pre.map Prod.fst → (compactFold store (pre ++ (kf, bf) :: post)).1 k = store k)
  | [], store, post, kf, bf, _, _, _, hbad => by
    obtain ⟨err, herr⟩ := loadOk_error hbad
    refine ⟨?_, ?_, ?_⟩
    · simp [compactFold, herr]
    · intro p hp
      simp at hp
    · intro k _
      simp [compactFold, herr]
  | (k0, b0) :: pre, store, post, kf, bf, hnd, hkf, hok, hbad => by
    have hok0 : loadOk (store k0) = true := hok _ (List.mem_cons_self _ _)
    have hload := loadOk_items hok0
    simp only [List.map_cons, List.nodup_cons] at hnd
    simp only [List.map_cons, List.mem_cons, not_or] at hkf
    have hstep : compactFold store (((k0, b0) :: pre) ++ (kf, bf) :: post) =
        compactFold
          (fun k2 => if k2 = k0 then JFile.jlist (merge_and_dedup (itemsOfFile (store k0)) b0)
           else store k2) (pre ++ (kf, bf) :: post) := by
      simp only [List.cons_append, List.append_eq, compactFold, hload]
    have hok2 : ∀ p ∈ pre,
        loadOk ((fun k2 => if k2 = k0 then JFile.jlist (merge_and_dedup (itemsOfFile (store k0)) b0)
          else store k2) p.1) := by
      intro p hp
      have hne : p.1 ≠ k0 := by
        intro hq
        exact hnd.1 (hq ▸ List.mem_map_of_mem Prod.fst hp)
      simp only [if_neg hne]
      exact hok p (List.mem_cons_of_mem _ hp)
    have hbad2 : loadOk ((fun k2 => if k2 = k0 then
        JFile.jlist (merge_and_dedup (itemsOfFile (store k0)) b0) else store k2) kf) = false := by
      simp only [if_neg hkf.1]
      exact hbad
    obtain ⟨ih1, ih2, ih3⟩ :=
      C5_amended_prefix_preserved pre
        (fun k2 => if k2 = k0 then JFile.jlist (merge_and_dedup (itemsOfFile (store k0)) b0)
         else store k2) post kf bf hnd.2 hkf.2 hok2 hbad2
    rw [hstep]
    refine ⟨ih1, ?_, ?_⟩
    · intro p hp
      rcases List.mem_cons.mp hp with rfl | hp'
      · have hk0 : (k0, b0).1 ∉ pre.map Prod.fst := hnd.1
        rw [ih3 _ hk0]
        simp
      · have hne : p.1 ≠ k0 := by
          intro hq
          exact hnd.1 (hq ▸ List.mem_map_of_mem Prod.fst hp')
        rw [ih2 p hp']
        simp [if_neg hne]
    · intro k hk
      simp only [List.map_cons, List.mem_cons, not_or] at hk
      rw [ih3 k hk.2]
      simp [if_neg hk.1]

theorem C5_amended_prefix_preserved_witness :
    (compactFold c5PreStore ([((2025, 11), [c5Nov])] ++ ((2025, 12), [c5Dec]) :: [])).2.isSome
        = true ∧
    (compactFold c5PreStore ([((2025, 11), [c5Nov])] ++ ((2025, 12), [c5Dec]) :: [])).1
        (2025, 11) =
      JFile.jlist (merge_and_dedup (itemsOfFile (c5PreStore (2025, 11))) [c5Nov]) :=
  ⟨(C5_amended_prefix_preserved [((2025, 11), [c5Nov])] c5PreStore [] (2025, 12) [c5Dec]
      (by decide) (by decide) (by decide) (by decide)).1,
   (C5_amended_prefix_preserved [((2025, 11), [c5Nov])] c5PreStore [] (2025, 12) [c5Dec]
      (by decide) (by decide) (by decide) (by decide)).2.1 ((2025, 11), [c5Nov]) (by decide)⟩

/-! ## Claim C6 -/

/-- C6 (counterexample): "unknown" is not a sort floor.  `c6B` has no
resolvable date at all, `c6A` resolves to the real (pre-epoch) timestamp
-100, yet the merged output places the undated `c6B` before the dated
`c6A`: a resolved item comes after an unknown one. -/
theorem C6_counterexample :
    merge_and_dedup [] [c6A, c6B] = [c6B, c6A] ∧
    parse_published_dt c6B = none ∧ c6B.published_ts = none ∧
    (parse_published_dt c6A).map PyDT.epoch = some (-100) := by decide

/-- C6 (amended): the merge result is sorted by `sort_key` descending,
where a fully undated item gets the synthetic key 0 (the epoch) — so
undated items sink below every item with a positive resolved timestamp,
but not below items with negative (pre-1970) timestamps. -/
theorem C6_amended_sort (e n : List Item) :
    List.Pairwise (fun a b => sort_key b ≤ sort_key a) (merge_and_dedup e n) ∧
    (∀ it ∈ merge_and_dedup e n, parse_published_dt it = none → it.published_ts = none →
      sort_key it = 0) ∧
    (∀ i j : Fin (merge_and_dedup e n).length, i < j →
      parse_published_dt ((merge_and_dedup e n).get i) = none →
      ((merge_and_dedup e n).get i).published_ts = none →
      sort_key ((merge_and_dedup e n).get j) ≤ 0) := by
  refine ⟨sortDescBy_pairwise sort_key _, ?_, ?_⟩
  · intro it _ h1 h2
    simp [sort_key, h1, h2]
  · intro i j hij h1 h2
    have hp := List.pairwise_iff_get.mp (sortDescBy_pairwise sort_key
      ((buildMap (e ++ n)).map Prod.snd)) i j hij
    have h0 : sort_key ((merge_and_dedup e n).get i) = 0 := by
      simp only [List.get_eq_getElem] at h1 h2 ⊢
      simp [sort_key, h1, h2]
    calc sort_key ((merge_and_dedup e n).get j) ≤ sort_key ((merge_and_dedup e n).get i) := hp
      _ = 0 := h0

theorem C6_amended_sort_witness : sort_key c6B = 0 :=
  (C6_amended_sort [] [c6A, c6B]).2.1 c6B (by decide) (by decide) (by decide)

/-! ## Claim C3 -/

/-- C3: the latest-timestamp-wins merge variant of the feed loop keeps the
incumbent unless the candidate's resolved (`or 0`) timestamp is strictly
greater; and ingesting two items with the same link and timestamps 100 and
200 — in either order — leaves the `published_ts = 200` item surviving. -/
theorem C3_latest_timestamp_wins :
    (∀ (m : List (String × Item)) (l : String) (ex cand : Item),
      lookupK l m = some ex →
      (tsOr0 cand ≤ tsOr0 ex → upsertLatest m l cand = m) ∧
      (tsOr0 ex < tsOr0 cand → lookupK l (upsertLatest m l cand) = some cand)) ∧
    lookupK ("L") (feedFold 0 [] [c3A, c3B]) = some c3B ∧
    lookupK ("L") (feedFold 0 [] [c3B, c3A]) = some c3B := by
  refine ⟨?_, by decide, by decide⟩
  intro m l ex cand hl
  constructor
  · intro hle
    simp only [upsertLatest, hl, if_neg (not_lt.mpr hle)]
  · intro hlt
    simp only [upsertLatest, hl, if_pos hlt, lookupK_insertKV]
    simp

theorem C3_latest_timestamp_wins_witness :
    upsertLatest [(("L"), c3B)] ("L") c3A = [(("L"), c3B)] ∧
    lookupK ("L") (upsertLatest [(("L"), c3A)] ("L") c3B) = some c3B :=
  ⟨(C3_latest_timestamp_wins.1 [(("L"), c3B)] ("L") c3B c3A (by decide)).1 (by decide),
   (C3_latest_timestamp_wins.1 [(("L"), c3A)] ("L") c3A c3B (by decide)).2 (by decide)⟩

/-! ## Lemmas for claim C10 -/

theorem preloadStep_eq (cutoff : Int) (m : List (String × Item)) (it : Item) :
    preloadStep cutoff m it =
      match it.link with
      | some l => if preKept cutoff it then insertKV m l it else m
      | none => m := by
  rcases hl : it.link with _ | l
  · simp [preloadStep, hl]
  · by_cases he : l = ""
    · simp [preloadStep, preKept, hl, he]
    · rcases hts : it.published_ts with _ | ts
      · simp [preloadStep, preKept, hl, he, hts]
      · by_cases hr : FROMTS_MIN ≤ ts ∧ ts ≤ FROMTS_MAX
        · by_cases hc : ts < cutoff
          · simp [preloadStep, preKept, hl, he, hts, hr, hc]
          · simp [preloadStep, preKept, hl, he, hts, hr, hc]
        · simp [preloadStep, preKept, hl, he, hts, hr]

theorem preKept_link {cutoff : Int} {it : Item} (h : preKept cutoff it = true) :
    ∃ l, it.link = some l := by
  rcases hl : it.link with _ | l
  · rw [preKept, hl] at h
    exact Bool.noConfusion h
  · exact ⟨l, rfl⟩

theorem lookupK_preload_foldl (cutoff : Int) :
    ∀ (existing : List Item) (m : List (String × Item)) (l : String),
      lookupK l (existing.foldl (preloadStep cutoff) m) =
        match lastWith (fun it => it.link) (some l) (existing.filter (preKept cutoff)) with
        | some v => some v
        | none => lookupK l m
  | [], m, l => by simp [lastWith]
  | x :: t, m, l => by
    simp only [List.foldl_cons]
    rw [lookupK_preload_foldl cutoff t _ l]
    by_cases hx : preKept cutoff x = true
    · obtain ⟨lx, hlx⟩ := preKept_link hx
      have hstep : preloadStep cutoff m x = insertKV m lx x := by
        simp only [preloadStep_eq, hlx, if_pos hx]
      rw [hstep]
      simp only [List.filter_cons, hx]
      rcases hrest : lastWith (fun it => it.link) (some l) (List.filter (preKept cutoff) t)
        with _ | v
      · simp only [lastWith, hrest, lookupK_insertKV, hlx]
        by_cases hll : lx = l
        · subst hll
          simp
        · have h2 : ¬(some lx = some l) := by
            intro hq
            exact hll (Option.some.inj hq)
          simp [hll, h2]
      · simp only [lastWith, hrest]
    · have hx' : preKept cutoff x = false := by
        cases hq : preKept cutoff x
        · rfl
        · exact absurd hq hx
      have hstep : preloadStep cutoff m x = m := by
        rcases hl2 : x.link with _ | lx
        · simp only [preloadStep_eq, hl2]
        · simp only [preloadStep_eq, hl2, if_neg hx]
      rw [hstep]
      simp only [List.filter_cons, hx']
      rfl

theorem preload_lookup (existing : List Item) (cutoff : Int) (l : String) :
    lookupK l (preload existing cutoff) =
      lastWith (fun it => it.link) (some l) (existing.filter (preKept cutoff)) := by
  rw [preload, lookupK_preload_foldl]
  rcases h : lastWith (fun it => it.link) (some l) (existing.filter (preKept cutoff)) with _ | v
  · simp [h, lookupK]
  · simp [h]

theorem feedStep_lookup_other (cutoff : Int) (m : List (String × Item)) (cand : Item)
    (l : String) (hne : cand.link ≠ some l) :
    lookupK l (feedStep cutoff m cand) = lookupK l m := by
  rcases hl : cand.link with _ | lc
  · simp [feedStep, hl]
  · have hlc : lc ≠ l := by
      intro hq
      exact hne (hl ▸ hq ▸ rfl)
    rcases ht : cand.title with _ | tt
    · simp [feedStep, hl, ht]
    · have hup : lookupK l (upsertLatest m lc cand) = lookupK l m := by
        rcases hex : lookupK lc m with _ | ex
        · simp only [upsertLatest, hex, lookupK_insertKV, if_neg hlc]
        · by_cases hcmp : tsOr0 ex < tsOr0 cand
          · simp only [upsertLatest, hex, if_pos hcmp, lookupK_insertKV, if_neg hlc]
          · simp only [upsertLatest, hex, if_neg hcmp]
      by_cases hg : lc = "" ∨ tt = ""
      · simp [feedStep, hl, ht, hg]
      · rcases hts : cand.published_ts with _ | ts
        · simp [feedStep, hl, ht, hg, hts, hup]
        · by_cases hc : ts < cutoff
          · simp [feedStep, hl, ht, hg, hts, hc]
          · simp [feedStep, hl, ht, hg, hts, hc, hup]

theorem feedStep_slot_mono (cutoff : Int) (m : List (String × Item)) (cand : Item)
    (l : String) (v : Item) (hv : lookupK l m = some v) :
    ∃ w, lookupK l (feedStep cutoff m cand) = some w ∧ tsOr0 v ≤ tsOr0 w := by
  by_cases hne : cand.link = some l
  · rcases ht : cand.title with _ | tt
    · refine ⟨v, ?_, le_refl _⟩
      simp [feedStep, hne, ht, hv]
    · have hup : ∃ w, lookupK l (upsertLatest m l cand) = some w ∧ tsOr0 v ≤ tsOr0 w := by
        simp only [upsertLatest, hv]
        by_cases hcmp : tsOr0 v < tsOr0 cand
        · refine ⟨cand, ?_, le_of_lt hcmp⟩
          simp [if_pos hcmp, lookupK_insertKV]
        · exact ⟨v, by rw [if_neg hcmp]; exact hv, le_refl _⟩
      by_cases hg : l = "" ∨ tt = ""
      · refine ⟨v, ?_, le_refl _⟩
        simp [feedStep, hne, ht, hg, hv]
      · rcases hts : cand.published_ts with _ | ts
        · obtain ⟨w, hw1, hw2⟩ := hup
          refine ⟨w, ?_, hw2⟩
          simpa [feedStep, hne, ht, hg, hts] using hw1
        · by_cases hc : ts < cutoff
          · refine ⟨v, ?_, le_refl _⟩
            simp [feedStep, hne, ht, hg, hts, hc, hv]
          · obtain ⟨w, hw1, hw2⟩ := hup
            refine ⟨w, ?_, hw2⟩
            simpa [feedStep, hne, ht, hg, hts, hc] using hw1
  · refine ⟨v, ?_, le_refl _⟩
    rw [feedStep_lookup_other cutoff m cand l hne]
    exact hv

theorem feedFold_slot_mono (cutoff : Int) :
    ∀ (cands : List Item) (m : List (String × Item)) (l : String) (v : Item),
      lookupK l m = some v →
      ∃ w, lookupK l (feedFold cutoff m cands) = some w ∧ tsOr0 v ≤ tsOr0 w
  | [], m, l, v, hv => ⟨v, hv, le_refl _⟩
  | c :: t, m, l, v, hv => by
    obtain ⟨w1, hw1, hle1⟩ := feedStep_slot_mono cutoff m c l v hv
    obtain ⟨w2, hw2, hle2⟩ := feedFold_slot_mono cutoff t (feedStep cutoff m c) l w1 hw1
    exact ⟨w2, hw2, le_trans hle1 hle2⟩

theorem feedFold_keep (cutoff : Int) :
    ∀ (cands : List Item) (m : List (String × Item)) (l : String) (v : Item),
      lookupK l m = some v → (∀ f ∈ cands, f.link = some l → tsOr0 f ≤ tsOr0 v) →
      lookupK l (feedFold cutoff m cands) = some v
  | [], _, _, _, hv, _ => hv
  | c :: t, m, l, v, hv, hno => by
    have hstep : lookupK l (feedStep cutoff m c) = some v := by
      by_cases hne : c.link = some l
      · have hc := hno c (List.mem_cons_self _ _) hne
        rcases ht : c.title with _ | tt
        · simp [feedStep, hne, ht, hv]
        · have hup : lookupK l (upsertLatest m l c) = some v := by
            simp only [upsertLatest, hv, if_neg (not_lt.mpr hc)]
          by_cases hg : l = "" ∨ tt = ""
          · simp [feedStep, hne, ht, hg, hv]
          · rcases hts : c.published_ts with _ | ts
            · simpa [feedStep, hne, ht, hg, hts] using hup
            · by_cases hcut : ts < cutoff
              · simp [feedStep, hne, ht, hg, hts, hcut, hv]
              · simpa [feedStep, hne, ht, hg, hts, hcut] using hup
      · rw [feedStep_lookup_other cutoff m c l hne]
        exact hv
    exact feedFold_keep cutoff t _ l v hstep
      (fun f hf => hno f (List.mem_cons_of_mem _ hf))

theorem feedStep_process (cutoff : Int) (m : List (String × Item)) (f : Item) (l : String)
    (hfl : f.link = some l) (hl : l ≠ "") (ht : ∃ t, f.title = some t ∧ t ≠ "")
    (hcut : ∀ ts, f.published_ts = some ts → cutoff ≤ ts) :
    ∃ w, lookupK l (feedStep cutoff m f) = some w ∧ tsOr0 f ≤ tsOr0 w := by
  obtain ⟨tt, htt, htne⟩ := ht
  have hg : ¬(l = "" ∨ tt = "") := by
    intro hq
    rcases hq with hq | hq
    · exact hl hq
    · exact htne hq
  have hup : ∃ w, lookupK l (upsertLatest m l f) = some w ∧ tsOr0 f ≤ tsOr0 w := by
    rcases hex : lookupK l m with _ | ex
    · refine ⟨f, ?_, le_refl _⟩
      simp [upsertLatest, hex, lookupK_insertKV]
    · by_cases hcmp : tsOr0 ex < tsOr0 f
      · refine ⟨f, ?_, le_refl _⟩
        simp [upsertLatest, hex, if_pos hcmp, lookupK_insertKV]
      · exact ⟨ex, by simp only [upsertLatest, hex, if_neg hcmp], not_lt.mp hcmp⟩
  rcases hts : f.published_ts with _ | ts
  · obtain ⟨w, hw1, hw2⟩ := hup
    refine ⟨w, ?_, hw2⟩
    simpa [feedStep, hfl, htt, hg, hts] using hw1
  · have hge := hcut ts hts
    have hnlt : ¬ts < cutoff := not_lt.mpr hge
    obtain ⟨w, hw1, hw2⟩ := hup
    refine ⟨w, ?_, hw2⟩
    simpa [feedStep, hfl, htt, hg, hts, hnlt] using hw1

theorem feedFold_reaches (cutoff : Int) (pre post : List Item) (m : List (String × Item))
    (l : String) (f : Item) (hfl : f.link = some l) (hl : l ≠ "")
    (ht : ∃ t, f.title = some t ∧ t ≠ "")
    (hcut : ∀ ts, f.published_ts = some ts → cutoff ≤ ts) :
    ∃ w, lookupK l (feedFold cutoff m (pre ++ f :: post)) = some w ∧ tsOr0 f ≤ tsOr0 w := by
  rw [feedFold, List.foldl_append]
  obtain ⟨w1, hw1, hle1⟩ :=
    feedStep_process cutoff (List.foldl (feedStep cutoff) m pre) f l hfl hl ht hcut
  obtain ⟨w2, hw2, hle2⟩ := feedFold_slot_mono cutoff post _ l w1 (by simpa using hw1)
  exact ⟨w2, by simpa using hw2, le_trans hle1 hle2⟩

/-! ## Claim C10 -/

/-- C10: an existing item with a non-empty link and a null `published_ts`
(here the last such item for its link) is preloaded into the new store for
every `DAYS_BACK` cutoff; it survives the whole feed phase whenever no
fetched same-link item resolves to a strictly positive `or 0` timestamp;
and when a valid fetched item with the same link carries a strictly
greater resolved timestamp, the stored item is replaced (the slot ends
with a positive-timestamp item different from it). -/
theorem C10_undated_items_persist (existing : List Item) (i : Item) (l : String)
    (hl : i.link = some l) (hne : l ≠ "") (hts : i.published_ts = none)
    (hlast : lastWith (fun it => it.link) (some l) existing = some i) :
    (∀ cutoff, lookupK l (preload existing cutoff) = some i) ∧
    (∀ cutoff cands, (∀ f ∈ cands, f.link = some l → tsOr0 f ≤ 0) →
      lookupK l (feedFold cutoff (preload existing cutoff) cands) = some i) ∧
    (∀ cutoff pre post f, f.link = some l → (∃ t, f.title = some t ∧ t ≠ "") →
      (∀ ts, f.published_ts = some ts → cutoff ≤ ts) → 0 < tsOr0 f →
      ∃ w, lookupK l (feedFold cutoff (preload existing cutoff) (pre ++ f :: post)) = some w ∧
        0 < tsOr0 w ∧ w ≠ i) := by
  have hkept : ∀ cutoff, preKept cutoff i = true := by
    intro cutoff
    simp [preKept, hl, hne, hts]
  have hpre : ∀ cutoff, lookupK l (preload existing cutoff) = some i := by
    intro cutoff
    rw [preload_lookup]
    exact lastWith_filter hlast (hkept cutoff)
  have hts0 : tsOr0 i = 0 := by
    simp [tsOr0, hts]
  refine ⟨hpre, ?_, ?_⟩
  · intro cutoff cands hno
    exact feedFold_keep cutoff cands _ l i (hpre cutoff)
      (fun f hf hfl => hts0 ▸ hno f hf hfl)
  · intro cutoff pre post f hfl htt hcut hpos
    obtain ⟨w, hw, hle⟩ := feedFold_reaches cutoff pre post _ l f hfl hne htt hcut
    have hwpos : 0 < tsOr0 w := lt_of_lt_of_le hpos hle
    refine ⟨w, hw, hwpos, ?_⟩
    intro hq
    rw [hq, hts0] at hwpos
    exact lt_irrefl 0 hwpos

theorem C10_undated_items_persist_witness :
    lookupK ("u") (preload [c10U] (-999999)) = some c10U ∧
    lookupK ("u") (feedFold 10 (preload [c10U] 10) [c10B]) = some c10U ∧
    ∃ w, lookupK ("u") (feedFold 10 (preload [c10U] 10) ([] ++ c10G :: [])) = some w ∧
      0 < tsOr0 w ∧ w ≠ c10U := by
  have h := C10_undated_items_persist [c10U] c10U ("u") rfl (by decide) rfl (by decide)
  refine ⟨h.1 (-999999), h.2.1 10 [c10B] (by decide), ?_⟩
  refine h.2.2 10 [] [] c10G rfl ⟨("g"), rfl, by decide⟩ ?_ (by decide)
  intro ts hts
  have : (50 : Int) = ts := Option.some.inj hts
  omega

/-! ## Lemmas for claim C7 -/

theorem runTrends_wins_aux (now : Int) :
    ∀ (entries : List Item) (st : TState),
      (entries.foldl (procEntry now) st).wins =
        st.wins.map (fun wt => (wt.1,
          entries.foldl
            (fun t e =>
              if contributes e now wt.1.2 then
                bumpTabs t (get_categories e) (tokenize (normalize_text e))
                  (vendorHits (normalize_text e)) (trendHits (normalize_text e))
                  (cveHits (normalize_text e))
              else t) wt.2))
  | [], st => by
    simp
  | e :: rest, st => by
    simp only [List.foldl_cons]
    rw [runTrends_wins_aux now rest (procEntry now st e)]
    rcases hd : entryDate e with _ | dt
    · have hw : (procEntry now st e).wins = st.wins := by
        simp [procEntry, hd]
      rw [hw]
      apply List.map_congr_left
      intro wt _
      have hc : contributes e now wt.1.2 = false := by
        simp [contributes, hd]
      simp [List.foldl_cons, hc]
    · have hw : (procEntry now st e).wins = st.wins.map (fun wt =>
          if within_window dt now wt.1.2 then
            (wt.1, bumpTabs wt.2 (get_categories e) (tokenize (normalize_text e))
              (vendorHits (normalize_text e)) (trendHits (normalize_text e))
              (cveHits (normalize_text e)))
          else wt) := by
        simp [procEntry, hd]
      rw [hw, List.map_map]
      apply List.map_congr_left
      intro wt _
      have hcon : contributes e now wt.1.2 = within_window dt now wt.1.2 := by
        simp [contributes, within_window, hd]
      by_cases hin : within_window dt now wt.1.2 = true
      · simp [Function.comp, List.foldl_cons, hcon, hin]
      · have hin' : within_window dt now wt.1.2 = false := by
          cases hq : within_window dt now wt.1.2
          · rfl
          · exact absurd hq hin
        simp [Function.comp, List.foldl_cons, hcon, hin']

/-! ## Claim C7 -/

/-- C7: for every configured window, the final per-window tables equal a
fold over the entries gated only by that window's own duration (each
window is an independent view), an entry with a resolved date contributes
iff the code's `within_window` test — which is exactly the inclusive lower
bound `now - days*86400 ≤ dt` — holds, an item exactly at the bound is
included, and one second below it is excluded. -/
theorem C7_window_inclusion (entries : List Item) (now : Int) :
    ((runTrends entries now).wins =
      WINDOWS.map (fun w => (w, windowTabs entries now w.2))) ∧
    (∀ e dt, entryDate e = some dt →
      ∀ days : Nat, contributes e now days = within_window dt now days) ∧
    (∀ dt days, within_window dt now days = decide (now - (days : Int) * 86400 ≤ dt)) ∧
    (∀ days : Nat, within_window (now - (days : Int) * 86400) now days = true ∧
      within_window (now - (days : Int) * 86400 - 1) now days = false) := by
  refine ⟨?_, ?_, ?_, ?_⟩
  · rw [runTrends, runTrends_wins_aux now entries initTState]
    simp only [initTState, List.map_map]
    apply List.map_congr_left
    intro w _
    simp [Function.comp, windowTabs]
  · intro e dt hd days
    simp [contributes, within_window, hd]
  · intro dt days
    rfl
  · intro days
    constructor
    · simp [within_window]
    · have hlt : ¬(now - (days : Int) * 86400 ≤ now - (days : Int) * 86400 - 1) := by omega
      simp [within_window, hlt]

theorem C7_window_inclusion_witness :
    within_window (1762500000 - (30 : Nat) * 86400) 1762500000 30 = true ∧
    within_window (1762500000 - (30 : Nat) * 86400 - 1) 1762500000 30 = false :=
  (C7_window_inclusion [] 1762500000).2.2.2 30

/-! ## Lemmas for claim C9 -/

theorem matchName_mem : ∀ (cs : List Char) (names : List (List Char)) (nm : List Char),
    matchName cs names = some nm → nm ∈ names
  | _, [], _, h => by simp [matchName] at h
  | cs, n0 :: rest, nm, h => by
    rw [matchName] at h
    split at h
    · cases h
      exact List.mem_cons_self _ _
    · exact List.mem_cons_of_mem _ (matchName_mem cs rest nm h)

theorem scanNamesAux_mem : ∀ (fuel : Nat) (prev : Option Char) (cs : List Char) (s : String),
    s ∈ scanNamesAux fuel prev cs → ∃ nm, nm ∈ lowNames ∧ s = String.mk nm
  | 0, _, _, s, h => by simp [scanNamesAux] at h
  | _ + 1, _, [], s, h => by simp [scanNamesAux] at h
  | fuel + 1, prev, c :: rest, s, h => by
    rw [scanNamesAux] at h
    by_cases hb : boundaryOk prev (some c) = true
    · rw [if_pos hb] at h
      rcases hm : matchName (c :: rest) lowNames with _ | nm
      · rw [hm] at h
        exact scanNamesAux_mem fuel (some c) rest s h
      · rw [hm] at h
        rcases List.mem_cons.mp h with rfl | h'
        · exact ⟨nm, matchName_mem _ _ _ hm, rfl⟩
        · exact scanNamesAux_mem fuel nm.getLast? _ s h'
    · rw [if_neg hb] at h
      exact scanNamesAux_mem fuel (some c) rest s h

theorem scanNames_mem {cs : List Char} {s : String} (h : s ∈ scanNames cs) :
    ∃ nm, nm ∈ lowNames ∧ s = String.mk nm :=
  scanNamesAux_mem cs.length none cs s h

theorem canonicalOf_surface {nm : List Char} (h : nm ∈ lowNames) :
    (canonicalOf (String.mk nm)).data.map Char.toLower = nm ∧
    canonicalOf (String.mk nm) ∈ THREAT_ACTOR_NAMES := by
  rcases List.mem_map.mp h with ⟨name, hmem, hlow⟩
  have hex : ∃ n ∈ THREAT_ACTOR_NAMES.reverse,
      (n.data.map Char.toLower == (String.mk nm).data) = true :=
    ⟨name, List.mem_reverse.mpr hmem, by simp [hlow]⟩
  rcases hfind : THREAT_ACTOR_NAMES.reverse.find?
      (fun n => n.data.map Char.toLower == (String.mk nm).data) with _ | n
  · rw [List.find?_eq_none] at hfind
    obtain ⟨n0, hn0, hp0⟩ := hex
    exact absurd hp0 (by simpa using hfind n0 hn0)
  · have hp := List.find?_some hfind
    have hmem2 := List.mem_of_find?_eq_some hfind
    have hcan : canonicalOf (String.mk nm) = n := by
      rw [canonicalOf, hfind]
    rw [hcan]
    refine ⟨?_, List.mem_reverse.mp hmem2⟩
    simpa using hp

theorem canonicalOf_inj {n1 n2 : List Char} (h1 : n1 ∈ lowNames) (h2 : n2 ∈ lowNames)
    (he : canonicalOf (String.mk n1) = canonicalOf (String.mk n2)) :
    String.mk n1 = String.mk n2 := by
  have p1 := (canonicalOf_surface h1).1
  have p2 := (canonicalOf_surface h2).1
  rw [he] at p1
  rw [p1] at p2
  rw [p2]

theorem count_map_canonical_le_one :
    ∀ (l : List String), l.Nodup → (∀ s ∈ l, ∃ nm, nm ∈ lowNames ∧ s = String.mk nm) →
      ∀ c : String, (l.map canonicalOf).count c ≤ 1
  | [], _, _, c => by simp
  | x :: t, hnd, hsurf, c => by
    rcases List.nodup_cons.mp hnd with ⟨hx, ht⟩
    by_cases hc : canonicalOf x = c
    · have hzero : (t.map canonicalOf).count c = 0 := by
        rw [List.count_eq_zero]
        intro hmem
        rcases List.mem_map.mp hmem with ⟨y, hy, hyc⟩
        obtain ⟨nm1, hnm1, hx1⟩ := hsurf x (List.mem_cons_self _ _)
        obtain ⟨nm2, hnm2, hy2⟩ := hsurf y (List.mem_cons_of_mem _ hy)
        have hinj : String.mk nm2 = String.mk nm1 := by
          apply canonicalOf_inj hnm2 hnm1
          rw [← hx1, ← hy2, hc, hyc]
        have hxy : y = x := by
          rw [hy2, hx1, hinj]
        exact hx (hxy ▸ hy)
      simp only [List.map_cons, List.count_cons, hzero, hc]
      simp
    · simp only [List.map_cons, List.count_cons]
      have hle := count_map_canonical_le_one t ht
        (fun s hs => hsurf s (List.mem_cons_of_mem _ hs)) c
      simp only [beq_iff_eq, if_neg hc]
      omega

theorem dedupFAux_sub : ∀ (seen l : List String) (x : String), x ∈ dedupFAux seen l → x ∈ l
  | _, [], x, h => by simp [dedupFAux] at h
  | seen, y :: t, x, h => by
    rw [dedupFAux] at h
    by_cases hy : y ∈ seen
    · rw [if_pos hy] at h
      exact List.mem_cons_of_mem _ (dedupFAux_sub seen t x h)
    · rw [if_neg hy] at h
      rcases List.mem_cons.mp h with rfl | h'
      · exact List.mem_cons_self _ _
      · exact List.mem_cons_of_mem _ (dedupFAux_sub _ t x h')

theorem dedupFAux_spec : ∀ (seen l : List String),
    (dedupFAux seen l).Nodup ∧ ∀ x ∈ dedupFAux seen l, x ∉ seen
  | _, [] => by simp [dedupFAux]
  | seen, y :: t => by
    rw [dedupFAux]
    by_cases hy : y ∈ seen
    · rw [if_pos hy]
      exact dedupFAux_spec seen t
    · rw [if_neg hy]
      obtain ⟨hnd, hns⟩ := dedupFAux_spec (y :: seen) t
      constructor
      · refine List.nodup_cons.mpr ⟨?_, hnd⟩
        intro hmem
        exact hns y hmem (List.mem_cons_self _ _)
      · intro x hx
        rcases List.mem_cons.mp hx with rfl | hx'
        · exact hy
        · intro hxseen
          exact hns x hx' (List.mem_cons_of_mem _ hxseen)

theorem dedupF_nodup (l : List String) : (dedupF l).Nodup :=
  (dedupFAux_spec [] l).1

theorem dedupF_sub {l : List String} {x : String} (h : x ∈ dedupF l) : x ∈ l :=
  dedupFAux_sub [] l x h

theorem mem_dedupFAux : ∀ (seen l : List String) (x : String), x ∈ l → x ∉ seen →
    x ∈ dedupFAux seen l
  | _, [], x, h, _ => absurd h (List.not_mem_nil x)
  | seen, y :: t, x, h, hns => by
    rw [dedupFAux]
    by_cases hy : y ∈ seen
    · rw [if_pos hy]
      rcases List.mem_cons.mp h with rfl | h'
      · exact absurd hy hns
      · exact mem_dedupFAux seen t x h' hns
    · rw [if_neg hy]
      by_cases hxy : x = y
      · subst hxy
        exact List.mem_cons_self _ _
      · rcases List.mem_cons.mp h with rfl | h'
        · exact absurd rfl hxy
        · refine List.mem_cons_of_mem _ (mem_dedupFAux (y :: seen) t x h' ?_)
          intro hmem
          rcases List.mem_cons.mp hmem with rfl | hmem'
          · exact hxy rfl
          · exact hns hmem'

theorem mem_dedupF {l : List String} {x : String} (h : x ∈ l) : x ∈ dedupF l :=
  mem_dedupFAux [] l x h (List.not_mem_nil x)

theorem itemActorContrib_le_one (e : Item) (c : String) : itemActorContrib e c ≤ 1 := by
  rw [itemActorContrib]
  apply count_map_canonical_le_one _ (dedupF_nodup _)
  intro s hs
  exact scanNames_mem (dedupF_sub hs)

theorem countOf_bump (cnt : CounterL) (k c : String) :
    countOf (bump cnt k) c = countOf cnt c + (if k = c then 1 else 0) := by
  induction cnt with
  | nil =>
    by_cases hk : k = c
    · subst hk
      simp [bump, countOf, lookupK]
    · simp [bump, countOf, lookupK, hk]
  | cons p t ih =>
    obtain ⟨k1, n⟩ := p
    by_cases h1 : k1 = k
    · subst h1
      by_cases hk : k1 = c
      · subst hk
        simp [bump, countOf, lookupK]
      · simp [bump, countOf, lookupK, hk]
    · by_cases hk : k1 = c
      · subst hk
        have hne : ¬(k = k1) := fun h => h1 h.symm
        simp [bump, countOf, lookupK, h1, hne]
      · simp only [bump, if_neg h1]
        simp only [countOf, lookupK, if_neg hk]
        have := ih
        simp only [countOf] at this
        exact this

theorem countOf_bumpFold :
    ∀ (names : List String) (cnt : CounterL) (c : String),
      countOf (names.foldl bump cnt) c = countOf cnt c + names.count c
  | [], cnt, c => by simp
  | x :: t, cnt, c => by
    simp only [List.foldl_cons, List.count_cons]
    rw [countOf_bumpFold t (bump cnt x) c, countOf_bump]
    by_cases hx : x = c
    · subst hx
      simp
      omega
    · have hcx : ¬(c = x) := fun h => hx h.symm
      simp [hx, hcx]

theorem lookupK_bumpNamesFor (tn : List (String × CounterL)) (day d : String)
    (names : List String) :
    lookupK d (bumpNamesFor tn day names) =
      if names.isEmpty then lookupK d tn
      else if day = d then
        some (names.foldl bump ((lookupK day tn).getD []))
      else lookupK d tn := by
  by_cases he : names.isEmpty = true
  · simp [bumpNamesFor, he]
  · have he' : names.isEmpty = false := by
      cases hq : names.isEmpty
      · rfl
      · exact absurd hq he
    rw [bumpNamesFor]
    simp only [he', if_false, Bool.false_eq_true]
    rw [lookupK_insertKV]
    rcases lookupK day tn with _ | cbase <;> simp

theorem taNames_fold (now : Int) :
    ∀ (entries : List Item) (st : TState) (d c : String),
      countOf ((lookupK d (entries.foldl (procEntry now) st).taNames).getD []) c =
        countOf ((lookupK d st.taNames).getD []) c +
          (entries.map (fun e => perDayContrib e d c)).sum
  | [], _, _, _ => by simp
  | e :: rest, st, d, c => by
    simp only [List.foldl_cons, List.map_cons, List.sum_cons]
    rw [taNames_fold now rest (procEntry now st e) d c]
    have hstep : countOf ((lookupK d (procEntry now st e).taNames).getD []) c =
        countOf ((lookupK d st.taNames).getD []) c + perDayContrib e d c := by
      rcases hd : entryDate e with _ | dt
      · simp [procEntry, perDayContrib, hd]
      · have htn : (procEntry now st e).taNames =
            bumpNamesFor st.taNames (isoDateStr dt)
              ((dedupF (scanNames (normalize_text e))).map canonicalOf) := by
          simp [procEntry, hd]
        have hcontrib : perDayContrib e d c =
            if isoDateStr dt = d then
              (((dedupF (scanNames (normalize_text e))).map canonicalOf).count c)
            else 0 := by
          simp [perDayContrib, hd, itemActorContrib]
        rw [htn, hcontrib, lookupK_bumpNamesFor]
        by_cases hemp : ((dedupF (scanNames (normalize_text e))).map canonicalOf).isEmpty = true
        · have hcnt0 : ((dedupF (scanNames (normalize_text e))).map canonicalOf).count c = 0 := by
            rw [List.isEmpty_iff] at hemp
            simp [hemp]
          simp [hemp, hcnt0]
        · have hemp' : ((dedupF (scanNames (normalize_text e))).map canonicalOf).isEmpty = false := by
            cases hq : ((dedupF (scanNames (normalize_text e))).map canonicalOf).isEmpty
            · rfl
            · exact absurd hq hemp
          simp only [hemp', if_false, Bool.false_eq_true]
          by_cases hday : isoDateStr dt = d
          · rw [if_pos hday, if_pos hday, Option.getD_some, countOf_bumpFold, hday]
          · simp [hday]
    omega

/-! ## Claim C9 -/

/-- C9: within one item, every canonical entity contributes at most one
occurrence to its day bucket — two differently-cased mentions collapse to
the same lowered surface, deduplicated by the `set(...)` before counting,
and an entity that is mentioned at all contributes exactly one — while
each distinct item contributes separately: the day counter is the sum of
the per-item contributions.  The contribution is a function of the
lowercased searchable text, so casing cannot affect it. -/
theorem C9_case_insensitive_entity_counts (entries : List Item) (now : Int) (d c : String) :
    countOf (dayNamesCounter entries now d) c =
      (entries.map (fun e => perDayContrib e d c)).sum ∧
    (∀ e : Item, itemActorContrib e c ≤ 1) ∧
    (∀ e1 e2 : Item, normalize_text e1 = normalize_text e2 →
      itemActorContrib e1 c = itemActorContrib e2 c) ∧
    (∀ e : Item, ∀ s ∈ scanNames (normalize_text e), canonicalOf s = c →
      itemActorContrib e c = 1) := by
  refine ⟨?_, fun e => itemActorContrib_le_one e c, ?_, ?_⟩
  · have h := taNames_fold now entries initTState d c
    have hinit : countOf ((lookupK d initTState.taNames).getD []) c = 0 := rfl
    rw [hinit] at h
    have hdn : dayNamesCounter entries now d =
        (lookupK d (entries.foldl (procEntry now) initTState).taNames).getD [] := by
      simp only [dayNamesCounter, runTrends]
      rcases lookupK d (List.foldl (procEntry now) initTState entries).taNames with _ | x <;> rfl
    calc countOf (dayNamesCounter entries now d) c
        = countOf ((lookupK d (entries.foldl (procEntry now) initTState).taNames).getD []) c := by
          rw [hdn]
      _ = 0 + (entries.map (fun e => perDayContrib e d c)).sum := h
      _ = (entries.map (fun e => perDayContrib e d c)).sum := by omega
  · intro e1 e2 h
    rw [itemActorContrib, itemActorContrib, h]
  · intro e s hs hc
    have hle := itemActorContrib_le_one e c
    have hge : 1 ≤ itemActorContrib e c := by
      rw [itemActorContrib]
      have hmem : c ∈ (dedupF (scanNames (normalize_text e))).map canonicalOf :=
        List.mem_map.mpr ⟨s, mem_dedupF hs, hc⟩
      rcases Nat.eq_zero_or_pos
          (((dedupF (scanNames (normalize_text e))).map canonicalOf).count c) with h0 | h1
      · rw [List.count_eq_zero] at h0
        exact absurd hmem h0
      · exact h1
    omega

set_option maxRecDepth 40000 in
theorem C9_case_insensitive_entity_counts_witness :
    itemActorContrib c9E1 ("Turla") = 1 ∧ itemActorContrib c9E1 ("Turla") ≤ 1 ∧
    countOf (dayNamesCounter [c9E1, c9E2] 1762500000 ("2025-11-05")) ("Turla") =
      (([c9E1, c9E2]).map (fun e => perDayContrib e ("2025-11-05") ("Turla"))).sum :=
  ⟨by decide,
   (C9_case_insensitive_entity_counts [c9E1, c9E2] 1762500000 ("2025-11-05") ("Turla")).2.1 c9E1,
   (C9_case_insensitive_entity_counts [c9E1, c9E2] 1762500000 ("2025-11-05") ("Turla")).1⟩

/-! ## Claim C8 -/

set_option maxRecDepth 200000 in
/-- C8 (counterexample): equal-count ties in a day's `top_actors` are NOT
broken by the canonical name's lexicographic order.  Two items on the same
day mention Turla (first) and Akira (second), both with count 1; the
output lists Turla before Akira although "Akira" < "Turla". -/
theorem C8_counterexample :
    threat_actor_daily [c8E1, c8E2] 1762500000 =
      [(("2025-11-05"), 2, [(("Turla"), 1), (("Akira"), 1)])] ∧
    strLtB ("Akira") ("Turla") = true := by decide

/-- C8 (amended): each day's entry lists the top-5 most-frequent canonical
names with their counts: the listed pairs are the first five of a
count-descending reordering of the day's counter that preserves, within
every equal-count class, the counter's insertion (first-encounter) order —
`Counter.most_common(5)` — rather than lexicographic name order. -/
theorem C8_amended_top_actors (entries : List Item) (now : Int) (d : String) (cnt : Nat)
    (tops : List (String × Nat))
    (h : (d, cnt, tops) ∈ threat_actor_daily entries now) :
    ∃ S : List (String × Nat),
      tops = S.take 5 ∧
      S.Perm (dayNamesCounter entries now d) ∧
      List.Pairwise (fun a b => b.2 ≤ a.2) S ∧
      ∀ c : Int, S.filter (fun p => decide ((p.2 : Int) = c)) =
        (dayNamesCounter entries now d).filter (fun p => decide ((p.2 : Int) = c)) := by
  simp only [threat_actor_daily] at h
  rcases List.mem_map.mp h with ⟨d0, hd0, heq⟩
  injection heq with h1 h23
  subst h1
  injection h23 with h2 h3
  have hmatch : (match lookupK d0 (runTrends entries now).taNames with
      | some c => c
      | none => ([] : CounterL)) = dayNamesCounter entries now d0 := by
    simp only [dayNamesCounter]
  refine ⟨sortDescBy (fun p : String × Nat => (p.2 : Int)) (dayNamesCounter entries now d0),
    ?_, sortDescBy_perm _ _, ?_, ?_⟩
  · rw [← h3, most_common, hmatch]
  · have hp := sortDescBy_pairwise (fun p : String × Nat => (p.2 : Int))
      (dayNamesCounter entries now d0)
    exact hp.imp (fun hab => by exact_mod_cast hab)
  · intro c
    exact sortDescBy_filter_key (fun p : String × Nat => (p.2 : Int)) c _

set_option maxRecDepth 200000 in
theorem C8_amended_top_actors_witness :
    ∃ S : List (String × Nat),
      [(("Turla"), 1), (("Akira"), 1)] = S.take 5 ∧
      S.Perm (dayNamesCounter [c8E1, c8E2] 1762500000 ("2025-11-05")) ∧
      List.Pairwise (fun a b => b.2 ≤ a.2) S ∧
      ∀ c : Int, S.filter (fun p => decide ((p.2 : Int) = c)) =
        (dayNamesCounter [c8E1, c8E2] 1762500000 ("2025-11-05")).filter
          (fun p => decide ((p.2 : Int) = c)) :=
  C8_amended_top_actors [c8E1, c8E2] 1762500000 ("2025-11-05") 2
    [(("Turla"), 1), (("Akira"), 1)] (by decide)
